import Mathlib

/-!
A verification development for the yeter incremental computation engine
(file src/lib.rs of the repository).

The engine is embedded shallowly:

* query identifiers are the static string paths used by the registry
  (the Rust side uses a static string, QName here is String);
* input hashes are natural numbers produced by a fixed deterministic
  hash function, mirroring the seeded DefaultHasher of the source
  (the engine trusts the hash, so only determinism matters);
* query outputs are drawn from a small universe Val of values; the
  Uninit sentinel of the source is represented by the value field of
  a cache entry being none;
* the type-indexed effect container of the source is represented by the
  ordered list of emitted effect values (each value carries its own
  constructor, standing for the type key of its bucket);
* query bodies are represented as programs in a small syntax Prog:
  a body may return a value, consult another query, or emit an effect.
  The engine interprets consultations by recursion, exactly as the
  source re-enters try_run through the typed wrapper of the consulted
  query;
* Rust panics (expect / unwrap / the unwrap inside run) are modelled as
  the error results RunError.unknownQuery / RunError.fatal, and the
  CycleError of the source as RunError.cycle; an error from a nested
  consultation aborts every enclosing computation without committing it,
  as unwinding does in the source;
* the recursion of try_run is untied with a fuel parameter; fuel
  exhaustion is the distinguished result RunError.fuel, which the source
  cannot produce (it would run out of stack instead);
* the call stack is a list whose head is the top (the source pushes and
  pops at the end of a Vec);
* the field calls of the Database records the (query, hash) pairs whose
  body was actually entered, in order; it is ghost instrumentation for
  the body-execution counters of the specification and is read by
  nothing inside the engine.
-/

namespace Yeter

abbrev QName := String
abbrev InputHash := Nat

/-- The universe of values a query can consume, produce, or emit. -/
inductive Val : Type where
  | unit : Val
  | nat (n : Nat) : Val
  | str (s : String) : Val
deriving DecidableEq

def Val.toNat : Val → Nat
  | .nat n => n
  | _ => 0

/-- Deterministic encoding of a string, used by the hash. -/
def strCode (s : String) : Nat :=
  s.data.foldl (fun a c => a * 1114112 + (c.toNat + 1)) 0

/-- The input hash: a fixed deterministic hash of the input value,
modelling the DefaultHasher of the source (seeded consistently across
the lifetime of a database). -/
def hashVal : Val → InputHash
  | .unit => 0
  | .nat n => 3 * n + 1
  | .str s => 3 * strCode s + 2

/-- A query body as a program: return a value, consult another query and
continue with its output, or emit a side effect. -/
inductive Prog : Type where
  | ret (v : Val) : Prog
  | call (q : QName) (i : Val) (k : Val → Prog) : Prog
  | emit (e : Val) (rest : Prog) : Prog

abbrev Body := Val → Prog

/-- Association-list lookup (the HashMap get of the source). -/
def aget {α β : Type _} [DecidableEq α] (k : α) : List (α × β) → Option β
  | [] => none
  | (k', v) :: rest => if k = k' then some v else aget k rest

/-- Association-list insert-or-replace (the HashMap insert of the source). -/
def aset {α β : Type _} [DecidableEq α] (k : α) (v : β) : List (α × β) → List (α × β)
  | [] => [(k, v)]
  | (k', v') :: rest => if k = k' then (k, v) :: rest else (k', v') :: aset k v rest

/-- A cache item (struct CachedComputation of the source). The Uninit
sentinel value is modelled by value = none. -/
structure CachedComputation : Type where
  version : Nat
  dependencies : List (QName × InputHash)
  value : Option Val
  effects : List Val
  redefined : Bool
deriving DecidableEq

/-- CachedComputation::new. -/
def CachedComputation.new (version : Nat) : CachedComputation :=
  { version := version, dependencies := [], value := none, effects := [],
    redefined := false }

abbrev QCache := List (InputHash × CachedComputation)
abbrev CacheMap := List (QName × QCache)

/-- The database (struct Database of the source). The calls field is
ghost instrumentation counting body entries; the source has no such
field, and nothing in the engine reads it. -/
structure Database : Type where
  fns : List (QName × Body)
  caches : CacheMap
  stack : List (QName × InputHash)
  effects : List Val
  calls : List (QName × InputHash)

def Database.empty : Database :=
  { fns := [], caches := [], stack := [], effects := [], calls := [] }

/-- Outcomes that abort a run: fuel exhaustion (an artifact of the
embedding), the CycleError of the source, and the two panic families of
try_run (unknown query, and the internal expects/unwraps). -/
inductive RunError : Type where
  | fuel
  | cycle
  | unknownQuery
  | fatal
deriving DecidableEq

/-- Versions of the dependencies of an entry, each looked up in the
whole cache map, as the newest_dep computation of try_run does; none
models the panic on a dangling dependency. -/
def depVersions (caches : CacheMap) : List (QName × InputHash) → Option (List Nat)
  | [] => some []
  | (f, k) :: rest =>
    match aget f caches with
    | none => none
    | some cache =>
      match aget k cache with
      | none => none
      | some c =>
        match depVersions caches rest with
        | none => none
        | some vs => some (c.version :: vs)

/-- max().unwrap_or(1) of the source: 1 for an empty list, otherwise the
maximum. -/
def maxOr1 : List Nat → Nat
  | [] => 1
  | v :: vs => vs.foldl Nat.max v

/-- Outcome of consulting the cache at the head of try_run. -/
inductive Decision : Type where
  | hit (v : Val)
  | cyc
  | recompute (old : Nat)
deriving DecidableEq

/-- The decision block at the head of try_run: a valid entry is a hit,
a valid Uninit entry is a cycle, and otherwise the block yields the
old version (0 for a miss, the entry version for a redefined entry,
newest_dep for a stale entry) for the later rebuild. -/
def decideRun (caches : CacheMap) (q : QName) (h : InputHash) :
    Except RunError Decision :=
  match aget q caches with
  | none => .error .fatal
  | some cache =>
    match aget h cache with
    | none => .ok (.recompute 0)
    | some c =>
      if c.redefined then .ok (.recompute c.version)
      else
        match depVersions caches c.dependencies with
        | none => .error .fatal
        | some vs =>
          if maxOr1 vs ≤ c.version then
            match c.value with
            | some v => .ok (.hit v)
            | none => .ok .cyc
          else .ok (.recompute (maxOr1 vs))

/-- try_run inserting the fresh Uninit entry at version old + 1. -/
def insertFresh (db : Database) (q : QName) (h : InputHash) (old : Nat) :
    Except RunError Database :=
  match aget q db.caches with
  | none => .error .fatal
  | some cache =>
    .ok { db with
          caches := aset q (aset h (CachedComputation.new (old + 1)) cache) db.caches }

/-- try_run capturing the stack top, pushing (q, h), and recording
(q, h) as a dependency of the captured top (if any). -/
def recordDep (db : Database) (q : QName) (h : InputHash) :
    Except RunError Database :=
  match db.stack with
  | [] => .ok { db with stack := [(q, h)] }
  | (tq, th) :: rest =>
    match aget tq db.caches with
    | none => .error .fatal
    | some tcache =>
      match aget th tcache with
      | none => .error .fatal
      | some tc =>
        .ok { db with
              stack := (q, h) :: (tq, th) :: rest,
              caches := aset tq
                (aset th { tc with dependencies := tc.dependencies ++ [(q, h)] } tcache)
                db.caches }

/-- The tail of try_run: pop the stack, move the scratch effects onto
the entry, and store the output. -/
def commitRun (db : Database) (q : QName) (h : InputHash) (out : Val) :
    Except RunError Database :=
  match aget q db.caches with
  | none => .error .fatal
  | some cache =>
    match aget h cache with
    | none => .error .fatal
    | some cc =>
      .ok { db with
            stack := db.stack.tail,
            effects := [],
            caches := aset q
              (aset h { cc with effects := db.effects, value := some out } cache)
              db.caches }

/-- The two kinds of work the engine interleaves: running a query
(try_run) and evaluating a body program. -/
inductive Task : Type where
  | runQ (q : QName) (i : Val)
  | prog (p : Prog)

/-- The rebuild path of try_run, parameterized over the evaluator of the
user body: insert the fresh Uninit entry, record the dependency on the
stack top and push, note the body entry in the ghost call log, evaluate
the body, and commit. On an aborting body the stack is not popped and
nothing is committed (the panic unwinds through try_run). -/
def recomputePhase (evalBody : Database → (Except RunError Val) × Database)
    (db : Database) (q : QName) (h : InputHash) (old : Nat) :
    (Except RunError Val) × Database :=
  match insertFresh db q h old with
  | .error e => (.error e, db)
  | .ok db1 =>
    match recordDep db1 q h with
    | .error e => (.error e, db1)
    | .ok db2 =>
      match evalBody { db2 with calls := db2.calls ++ [(q, h)] } with
      | (.error e, db4) => (.error e, db4)
      | (.ok out, db4) =>
        match commitRun db4 q h out with
        | .error e => (.error e, db4)
        | .ok db5 => (.ok out, db5)

/-- The engine. Task.runQ is Database::try_run of the source; Task.prog
is the execution of a user body, whose query consultations re-enter
try_run. Fuel only bounds the recursion depth of the embedding. -/
def execDb : Nat → Database → Task → (Except RunError Val) × Database
  | 0, db, _ => (.error .fuel, db)
  | _ + 1, db, .prog (.ret v) => (.ok v, db)
  | f + 1, db, .prog (.emit e rest) =>
    execDb f { db with effects := db.effects ++ [e] } (.prog rest)
  | f + 1, db, .prog (.call q i k) =>
    match execDb f db (.runQ q i) with
    | (.ok v, db1) => execDb f db1 (.prog (k v))
    | (.error e, db1) => (.error e, db1)
  | f + 1, db, .runQ q i =>
    match aget q db.fns with
    | none => (.error .unknownQuery, db)
    | some body =>
      match decideRun db.caches q (hashVal i) with
      | .error e => (.error e, db)
      | .ok (.hit v) => (.ok v, db)
      | .ok .cyc => (.error .cycle, db)
      | .ok (.recompute old) =>
        recomputePhase (fun d => execDb f d (.prog (body i))) db q (hashVal i) old

/-- Database::try_run. -/
def Database.tryRun (fuel : Nat) (db : Database) (q : QName) (i : Val) :
    (Except RunError Val) × Database :=
  execDb fuel db (.runQ q i)

/-- Database::run: try_run followed by unwrap. The first component is
none exactly when the source panics. -/
def Database.run (fuel : Nat) (db : Database) (q : QName) (i : Val) :
    Option Val × Database :=
  match Database.tryRun fuel db q i with
  | (.ok v, db') => (some v, db')
  | (.error _, db') => (none, db')

/-- The bump applied by register to each existing entry of a redefined
query. -/
def bumpEntry (c : CachedComputation) : CachedComputation :=
  { c with version := c.version + 1, redefined := true }

/-- Database::register: install the body; on redefinition bump and mark
every existing entry of the query, otherwise create its empty cache. -/
def Database.register (db : Database) (q : QName) (f : Body) :
    Except RunError Database :=
  let fns' := aset q f db.fns
  if (aget q db.fns).isSome then
    match aget q db.caches with
    | none => .error .fatal
    | some cache =>
      .ok { db with
            fns := fns',
            caches := aset q (cache.map (fun e => (e.1, bumpEntry e.2))) db.caches }
  else
    .ok { db with fns := fns', caches := aset q ([] : QCache) db.caches }

/-- Database::do_effect: push the emitted value onto its bucket of the
scratch container. -/
def Database.doEffect (db : Database) (e : Val) : Database :=
  { db with effects := db.effects ++ [e] }

/-- The operations a client can apply to a database, for statements
about whole operation sequences. Register is applied through its
non-panicking branch (a register panic mutates no cache entry). -/
inductive Op : Type where
  | reg (q : QName) (f : Body)
  | tryRunOp (fuel : Nat) (q : QName) (i : Val)
  | runOp (fuel : Nat) (q : QName) (i : Val)
  | eff (e : Val)

def applyOp (db : Database) : Op → Database
  | .reg q f =>
    match db.register q f with
    | .ok db' => db'
    | .error _ => db
  | .tryRunOp fuel q i => (Database.tryRun fuel db q i).2
  | .runOp fuel q i => (Database.run fuel db q i).2
  | .eff e => db.doEffect e

def applyOps (db : Database) (ops : List Op) : Database :=
  ops.foldl applyOp db

/-- Entry of the cache of q at hash h. -/
def entryAt (db : Database) (q : QName) (h : InputHash) :
    Option CachedComputation :=
  match aget q db.caches with
  | none => none
  | some cache => aget h cache

def versionAt (db : Database) (q : QName) (h : InputHash) : Option Nat :=
  (entryAt db q h).map (fun c => c.version)

def depsAt (db : Database) (q : QName) (h : InputHash) :
    Option (List (QName × InputHash)) :=
  (entryAt db q h).map (fun c => c.dependencies)

def valueAt (db : Database) (q : QName) (h : InputHash) : Option (Option Val) :=
  (entryAt db q h).map (fun c => c.value)

def effectsAt (db : Database) (q : QName) (h : InputHash) : Option (List Val) :=
  (entryAt db q h).map (fun c => c.effects)

def redefinedAt (db : Database) (q : QName) (h : InputHash) : Option Bool :=
  (entryAt db q h).map (fun c => c.redefined)

/-! ### Concrete scenarios

Registration from a fresh database never takes the panic branch of
register, so the scenarios chain registrations through regD, which
peels the Except. -/

def regD (db : Database) (q : QName) (f : Body) : Database :=
  match db.register q f with
  | .ok db' => db'
  | .error _ => db

/-- Body of the cycle test: a() reads depends_on_a() and adds 1
(tests/reentrancy.rs). -/
def aBody : Body := fun _ =>
  .call "depends_on_a" .unit (fun v => .ret (.nat (v.toNat + 1)))

/-- Body of the cycle test: depends_on_a() reads a() and subtracts 1. -/
def depABody : Body := fun _ =>
  .call "a" .unit (fun v => .ret (.nat (v.toNat - 1)))

/-- The database of the cycle scenario. -/
def cycleDb : Database := regD (regD Database.empty "a" aBody) "depends_on_a" depABody

/-- Body of the memoized Fibonacci query (tests/reentrancy.rs). -/
def fibBody : Body := fun v =>
  match v with
  | .nat 0 => .ret (.nat 0)
  | .nat 1 => .ret (.nat 1)
  | .nat (n + 2) =>
    .call "fib" (.nat (n + 1)) (fun a =>
      .call "fib" (.nat n) (fun b => .ret (.nat (a.toNat + b.toNat))))
  | _ => .ret .unit

def fibDb : Database := regD Database.empty "fib" fibBody

/-- Body of the memoization scenario: the length of a string input. -/
def lenBody : Body := fun v =>
  match v with
  | .str s => .ret (.nat s.data.length)
  | _ => .ret (.nat 0)

def lenDb : Database := regD Database.empty "len" lenBody

/-- A leaf query returning 1. -/
def qBody : Body := fun _ => .ret (.nat 1)

/-- A query reading q and adding 1. -/
def dBody : Body := fun _ => .call "q" .unit (fun v => .ret (.nat (v.toNat + 1)))

/-- A leaf query returning 7. -/
def bBody : Body := fun _ => .ret (.nat 7)

/-- A query reading b and adding 1. -/
def cBody : Body := fun v =>
  match v with
  | _ => .call "b" .unit (fun w => .ret (.nat (w.toNat + 1)))

/-- Scenario for dependency recording on a cache hit: register b and c,
run b, then run c (whose consultation of b is answered from the cache). -/
def hitDb0 : Database := regD (regD Database.empty "b" bBody) "c" cBody
def hitDb1 : Database := (Database.tryRun 50 hitDb0 "b" .unit).2
def hitDb2 : Database := (Database.tryRun 50 hitDb1 "c" .unit).2

/-- Scenario breaking dominance: register q and d, run q, re-register q,
then run d for the first time. -/
def domDb0 : Database := regD (regD Database.empty "q" qBody) "d" dBody
def domDb1 : Database := (Database.tryRun 50 domDb0 "q" .unit).2
def domDb2 : Database := regD domDb1 "q" qBody
def domDb3 : Database := (Database.tryRun 50 domDb2 "d" .unit).2

/-- One more run of d on the dominance-breaking state: the entry of d is
stale (version 1 against dependency version 3), so the body of d runs
again with no intervening registration. -/
def domDb4 : Database := (Database.tryRun 50 domDb3 "d" .unit).2

/-- Scenario breaking the redefinition cascade: run d once, re-register
d twice and q once, run d (d rebuilds at version 4, its dependency q at
version 3), then re-register q (whose bump only reaches version 4, so
the entry of d still dominates it and is answered from the cache). -/
def cascDb0 : Database := regD (regD Database.empty "q" qBody) "d" dBody
def cascDb1 : Database := (Database.tryRun 50 cascDb0 "d" .unit).2
def cascDb2 : Database := regD cascDb1 "d" dBody
def cascDb3 : Database := regD cascDb2 "d" dBody
def cascDb4 : Database := regD cascDb3 "q" qBody
def cascDb5 : Database := (Database.tryRun 50 cascDb4 "d" .unit).2
def cascDb6 : Database := regD cascDb5 "q" qBody

/-- Scenario for the rebuild version: run q, re-register it, run it
again (the rebuild happens at version 3, not at the bumped version 2). -/
def verDb0 : Database := regD Database.empty "q" qBody
def verDb1 : Database := (Database.tryRun 50 verDb0 "q" .unit).2
def verDb2 : Database := regD verDb1 "q" qBody
def verDb3 : Database := (Database.tryRun 50 verDb2 "q" .unit).2

/-- Body of the effect-ownership scenario: inner emits "e2". -/
def innerBody : Body := fun _ => .emit (.str "e2") (.ret (.nat 0))

/-- Body of the effect-ownership scenario: outer emits "e1" and then
consults inner. -/
def outerBody : Body := fun _ =>
  .emit (.str "e1") (.call "inner" .unit (fun _ => .ret (.nat 1)))

def effDb0 : Database := regD (regD Database.empty "inner" innerBody) "outer" outerBody
def effDb1 : Database := (Database.tryRun 50 effDb0 "outer" .unit).2

/-- Three consultations of the len query: twice on "hello", once on
"world" (the basic memoization scenario). -/
def lenR1 : (Except RunError Val) × Database :=
  Database.tryRun 60 lenDb "len" (.str "hello")
def lenR2 : (Except RunError Val) × Database :=
  Database.tryRun 60 lenR1.2 "len" (.str "hello")
def lenR3 : (Except RunError Val) × Database :=
  Database.tryRun 60 lenR2.2 "len" (.str "world")

/-- A body used only to populate a registry. -/
def uBody : Body := fun _ => .ret .unit

/-- A database in the middle of building the entry of ("u", 0): the
entry holds the Uninit sentinel and sits on the call stack. -/
def uninitDb : Database :=
  { fns := [("u", uBody)],
    caches := [("u", [(0, CachedComputation.new 1)])],
    stack := [("u", 0)],
    effects := [],
    calls := [("u", 0)] }

/-- The committed entry of q at version 1 (value 1, no deps). -/
def ccQ1 : CachedComputation :=
  { version := 1, dependencies := [], value := some (.nat 1), effects := [],
    redefined := false }

/-- The q entry after one run and one re-register: version 2, marked. -/
def ccQ2 : CachedComputation :=
  { version := 2, dependencies := [], value := some (.nat 1), effects := [],
    redefined := true }

/-- The q entry of the cascade scenario after its last rebuild and one
more re-register: version 4, marked. -/
def ccQ4 : CachedComputation :=
  { version := 4, dependencies := [], value := some (.nat 1), effects := [],
    redefined := true }

/-! ### State predicates -/

/-- All cache entries satisfy P. -/
def entriesP (P : CachedComputation → Prop) (caches : CacheMap) : Prop :=
  ∀ p ∈ caches, ∀ e ∈ p.2, P e.2

instance {P : CachedComputation → Prop} [DecidablePred P] {caches : CacheMap} :
    Decidable (entriesP P caches) := by
  unfold entriesP
  infer_instance

/-- Every cache entry has version 1 and a clear redefined flag: the
state of a database on which register was never called for an already
registered query. -/
def allOne (db : Database) : Prop :=
  entriesP (fun c => c.version = 1 ∧ c.redefined = false) db.caches

instance {db : Database} : Decidable (allOne db) := by
  unfold allOne
  infer_instance

/-- Every cache entry has a positive version. -/
def posVersions (db : Database) : Prop :=
  entriesP (fun c => 1 ≤ c.version) db.caches

instance {db : Database} : Decidable (posVersions db) := by
  unfold posVersions
  infer_instance

/-- Every recorded dependency of every entry names an extant entry. -/
def noDangling (db : Database) : Prop :=
  ∀ p ∈ db.caches, ∀ e ∈ p.2, ∀ d ∈ e.2.dependencies,
    (entryAt db d.1 d.2).isSome = true

instance {db : Database} : Decidable (noDangling db) := by
  unfold noDangling
  infer_instance

/-- Every query that has a cache also has a registered body (true from
Database::new on, since only register creates caches). -/
def keysSync (db : Database) : Prop :=
  ∀ p ∈ db.caches, (aget p.1 db.fns).isSome = true

instance {db : Database} : Decidable (keysSync db) := by
  unfold keysSync
  infer_instance

/-- The entry of (q, h), if any, has a clear redefined flag. -/
def redefClear (db : Database) (q : QName) (h : InputHash) : Prop :=
  ∀ c, entryAt db q h = some c → c.redefined = false

/-- The dominance invariant claimed by the specification: every
committed (non-Uninit, non-redefined) entry has a version at least that
of each entry named among its dependencies. -/
def dominantB (db : Database) : Bool :=
  db.caches.all (fun p => p.2.all (fun e =>
    e.2.redefined || e.2.value.isNone ||
      e.2.dependencies.all (fun d =>
        match entryAt db d.1 d.2 with
        | none => true
        | some dc => decide (dc.version ≤ e.2.version))))

/-- db' extends db entrywise with versions not decreasing. -/
def versionsLe (db db' : Database) : Prop :=
  ∀ q h c, entryAt db q h = some c →
    ∃ c', entryAt db' q h = some c' ∧ c.version ≤ c'.version

/-- The atomic mutations of the database a running try_run performs,
in the order the source performs them: inserting the fresh entry decided
by the consultation, recording a dependency while pushing the stack,
extending the ghost call log, emitting an effect into the scratch, and
committing an entry. -/
inductive CStep : Database → Database → Prop where
  | fresh (q : QName) (h : InputHash) (old : Nat) (db db1 : Database) :
      decideRun db.caches q h = .ok (.recompute old) →
      insertFresh db q h old = .ok db1 → CStep db db1
  | dep (q : QName) (h : InputHash) (c : CachedComputation) (db db1 : Database) :
      entryAt db q h = some c →
      recordDep db q h = .ok db1 → CStep db db1
  | note (db : Database) (l : List (QName × InputHash)) :
      CStep db { db with calls := db.calls ++ l }
  | emitS (db : Database) (e : Val) :
      CStep db { db with effects := db.effects ++ [e] }
  | commitS (q : QName) (h : InputHash) (out : Val) (db db1 : Database) :
      commitRun db q h out = .ok db1 → CStep db db1

/-- Reflexive-transitive closure of CStep: everything a run can do to
the database. -/
inductive Steps : Database → Database → Prop where
  | refl (db : Database) : Steps db db
  | tail (a b c : Database) : Steps a b → CStep b c → Steps a c

/-- Cache-map level view of entryAt, for lemmas about cache updates. -/
def entryC (caches : CacheMap) (q : QName) (h : InputHash) :
    Option CachedComputation :=
  match aget q caches with
  | none => none
  | some cache => aget h cache

/-! ### Association-list lemmas -/

theorem aget_aset_self {α β : Type _} [DecidableEq α] (k : α) (v : β)
    (l : List (α × β)) : aget k (aset k v l) = some v := by
  induction l with
  | nil => simp [aget, aset]
  | cons p rest ih =>
    obtain ⟨a, b⟩ := p
    by_cases hk : k = a
    · simp [aset, hk, aget]
    · simp [aset, hk, aget, ih]

theorem aget_aset_ne {α β : Type _} [DecidableEq α] {k' k : α} (hne : k' ≠ k)
    (v : β) (l : List (α × β)) : aget k' (aset k v l) = aget k' l := by
  induction l with
  | nil => simp [aget, aset, hne]
  | cons p rest ih =>
    obtain ⟨a, b⟩ := p
    by_cases hk : k = a
    · subst hk
      simp [aset, aget, hne, ih]
    · simp [aset, hk, aget, ih]

theorem mem_aset {α β : Type _} [DecidableEq α] {p : α × β} {k : α} {v : β}
    {l : List (α × β)} (hm : p ∈ aset k v l) : p = (k, v) ∨ p ∈ l := by
  induction l with
  | nil => simpa [aset] using hm
  | cons e rest ih =>
    obtain ⟨a, b⟩ := e
    by_cases hk : k = a
    · simp only [aset, if_pos hk] at hm
      rcases List.mem_cons.mp hm with h | h
      · exact Or.inl h
      · exact Or.inr (List.mem_cons_of_mem _ h)
    · simp only [aset, if_neg hk] at hm
      rcases List.mem_cons.mp hm with h | h
      · exact Or.inr (h ▸ List.mem_cons_self _ _)
      · rcases ih h with h' | h'
        · exact Or.inl h'
        · exact Or.inr (List.mem_cons_of_mem _ h')

theorem aget_some_mem {α β : Type _} [DecidableEq α] {k : α} {v : β}
    {l : List (α × β)} (hg : aget k l = some v) : (k, v) ∈ l := by
  induction l with
  | nil => simp [aget] at hg
  | cons e rest ih =>
    obtain ⟨a, b⟩ := e
    by_cases hk : k = a
    · simp only [aget, if_pos hk] at hg
      subst hk
      cases hg
      exact List.mem_cons_self _ _
    · simp only [aget, if_neg hk] at hg
      exact List.mem_cons_of_mem _ (ih hg)

theorem aget_map_snd {α β : Type _} [DecidableEq α] (g : β → β) (k : α)
    (l : List (α × β)) :
    aget k (l.map (fun e => (e.1, g e.2))) = (aget k l).map g := by
  induction l with
  | nil => simp [aget]
  | cons e rest ih =>
    obtain ⟨a, b⟩ := e
    by_cases hk : k = a
    · simp [aget, hk]
    · simp [aget, hk, ih]

theorem entryAt_eq_entryC (db : Database) (q : QName) (h : InputHash) :
    entryAt db q h = entryC db.caches q h := rfl

theorem entryC_set {caches : CacheMap} {q0 : QName} {cache : QCache}
    (hc : aget q0 caches = some cache) (h0 : InputHash) (c0 : CachedComputation)
    (q : QName) (h : InputHash) :
    entryC (aset q0 (aset h0 c0 cache) caches) q h =
      if q = q0 ∧ h = h0 then some c0 else entryC caches q h := by
  by_cases hq : q = q0
  · subst hq
    rw [entryC, aget_aset_self]
    by_cases hh : h = h0
    · subst hh
      simp [aget_aset_self]
    · simp only [aget_aset_ne hh]
      simp [hh, entryC, hc]
  · rw [entryC, aget_aset_ne hq]
    simp [hq, entryC]

/-! ### Shape lemmas for the phases of try_run -/

theorem insertFresh_ok {db : Database} {q : QName} {h : InputHash} {old : Nat}
    {db1 : Database} (H : insertFresh db q h old = .ok db1) :
    ∃ cache, aget q db.caches = some cache ∧
      db1 = { db with
              caches := aset q (aset h (CachedComputation.new (old + 1)) cache)
                db.caches } := by
  unfold insertFresh at H
  cases hc : aget q db.caches with
  | none =>
    simp only [hc] at H
    exact (Except.noConfusion H)
  | some cache =>
    simp only [hc] at H
    injection H with H
    exact ⟨cache, rfl, H.symm⟩

theorem recordDep_ok {db : Database} {q : QName} {h : InputHash}
    {db1 : Database} (H : recordDep db q h = .ok db1) :
    (db.stack = [] ∧ db1 = { db with stack := [(q, h)] }) ∨
    (∃ tq th rest tcache tc,
      db.stack = (tq, th) :: rest ∧
      aget tq db.caches = some tcache ∧
      aget th tcache = some tc ∧
      db1 = { db with
              stack := (q, h) :: (tq, th) :: rest,
              caches := aset tq
                (aset th
                  { tc with dependencies := tc.dependencies ++ [(q, h)] } tcache)
                db.caches }) := by
  unfold recordDep at H
  cases hs : db.stack with
  | nil =>
    simp only [hs] at H
    injection H with H
    exact Or.inl ⟨rfl, H.symm⟩
  | cons top rest =>
    obtain ⟨tq, th⟩ := top
    simp only [hs] at H
    cases hc : aget tq db.caches with
    | none =>
      simp only [hc] at H
      exact (Except.noConfusion H)
    | some tcache =>
      simp only [hc] at H
      cases he : aget th tcache with
      | none =>
        simp only [he] at H
        exact (Except.noConfusion H)
      | some tc =>
        simp only [he] at H
        injection H with H
        exact Or.inr ⟨tq, th, rest, tcache, tc, rfl, hc, he, H.symm⟩

theorem commitRun_ok {db : Database} {q : QName} {h : InputHash} {out : Val}
    {db1 : Database} (H : commitRun db q h out = .ok db1) :
    ∃ cache cc, aget q db.caches = some cache ∧ aget h cache = some cc ∧
      db1 = { db with
              stack := db.stack.tail,
              effects := [],
              caches := aset q
                (aset h { cc with effects := db.effects, value := some out } cache)
                db.caches } := by
  unfold commitRun at H
  cases hc : aget q db.caches with
  | none =>
    simp only [hc] at H
    exact (Except.noConfusion H)
  | some cache =>
    simp only [hc] at H
    cases he : aget h cache with
    | none =>
      simp only [he] at H
      exact (Except.noConfusion H)
    | some cc =>
      simp only [he] at H
      injection H with H
      exact ⟨cache, cc, rfl, he, H.symm⟩

theorem register_ok {db : Database} {q : QName} {f : Body} {db1 : Database}
    (H : Database.register db q f = .ok db1) :
    ((aget q db.fns).isSome = false ∧
      db1 = { db with fns := aset q f db.fns, caches := aset q [] db.caches }) ∨
    (∃ cache, (aget q db.fns).isSome = true ∧ aget q db.caches = some cache ∧
      db1 = { db with
              fns := aset q f db.fns,
              caches := aset q (cache.map (fun e => (e.1, bumpEntry e.2)))
                db.caches }) := by
  unfold Database.register at H
  by_cases hr : (aget q db.fns).isSome = true
  · rw [if_pos hr] at H
    cases hc : aget q db.caches with
    | none =>
      simp only [hc] at H
      exact (Except.noConfusion H)
    | some cache =>
      simp only [hc] at H
      injection H with H
      exact Or.inr ⟨cache, hr, rfl, H.symm⟩
  · rw [if_neg hr] at H
    injection H with H
    exact Or.inl ⟨by simpa using hr, H.symm⟩

/-! ### decideRun lemmas -/

theorem decideRun_recompute_inv {caches : CacheMap} {q : QName} {h : InputHash}
    {old : Nat} (H : decideRun caches q h = .ok (.recompute old)) :
    ∃ cache, aget q caches = some cache ∧
      ((aget h cache = none ∧ old = 0) ∨
       (∃ c, aget h cache = some c ∧
         ((c.redefined = true ∧ old = c.version) ∨
          (c.redefined = false ∧
            ∃ vs, depVersions caches c.dependencies = some vs ∧
              c.version < maxOr1 vs ∧ old = maxOr1 vs)))) := by
  unfold decideRun at H
  cases hc : aget q caches with
  | none =>
    simp only [hc] at H
    exact (Except.noConfusion H)
  | some cache =>
    simp only [hc] at H
    refine ⟨cache, rfl, ?_⟩
    cases he : aget h cache with
    | none =>
      simp only [he] at H
      injection H with H
      injection H with H
      exact Or.inl ⟨rfl, H.symm⟩
    | some c =>
      simp only [he] at H
      by_cases hr : c.redefined = true
      · rw [if_pos hr] at H
        injection H with H
        injection H with H
        exact Or.inr ⟨c, rfl, Or.inl ⟨hr, H.symm⟩⟩
      · rw [if_neg hr] at H
        cases hd : depVersions caches c.dependencies with
        | none =>
          simp only [hd] at H
          exact (Except.noConfusion H)
        | some vs =>
          simp only [hd] at H
          by_cases hm : maxOr1 vs ≤ c.version
          · rw [if_pos hm] at H
            cases hv : c.value with
            | some v => simp only [hv] at H; simp at H
            | none => simp only [hv] at H; simp at H
          · rw [if_neg hm] at H
            injection H with H
            injection H with H
            exact Or.inr ⟨c, rfl,
              Or.inr ⟨by simpa using hr, vs, hd, by omega, H.symm⟩⟩

theorem decideRun_hit_of {caches : CacheMap} {q : QName} {h : InputHash}
    {cache : QCache} {c : CachedComputation} {vs : List Nat} {v : Val}
    (hc : aget q caches = some cache) (he : aget h cache = some c)
    (hr : c.redefined = false)
    (hd : depVersions caches c.dependencies = some vs)
    (hm : maxOr1 vs ≤ c.version) (hv : c.value = some v) :
    decideRun caches q h = .ok (.hit v) := by
  unfold decideRun
  simp only [hc, he, hr, hd, hv, if_pos hm, if_neg (Bool.false_ne_true)]

theorem decideRun_cyc_of {caches : CacheMap} {q : QName} {h : InputHash}
    {cache : QCache} {c : CachedComputation} {vs : List Nat}
    (hc : aget q caches = some cache) (he : aget h cache = some c)
    (hr : c.redefined = false)
    (hd : depVersions caches c.dependencies = some vs)
    (hm : maxOr1 vs ≤ c.version) (hv : c.value = none) :
    decideRun caches q h = .ok .cyc := by
  unfold decideRun
  simp only [hc, he, hr, hd, hv, if_pos hm, if_neg (Bool.false_ne_true)]

theorem decideRun_miss_of {caches : CacheMap} {q : QName} {h : InputHash}
    {cache : QCache} (hc : aget q caches = some cache)
    (he : aget h cache = none) :
    decideRun caches q h = .ok (.recompute 0) := by
  unfold decideRun
  simp only [hc, he]

theorem decideRun_redef_of {caches : CacheMap} {q : QName} {h : InputHash}
    {cache : QCache} {c : CachedComputation}
    (hc : aget q caches = some cache) (he : aget h cache = some c)
    (hr : c.redefined = true) :
    decideRun caches q h = .ok (.recompute c.version) := by
  unfold decideRun
  simp only [hc, he, if_pos hr]

theorem decideRun_stale_of {caches : CacheMap} {q : QName} {h : InputHash}
    {cache : QCache} {c : CachedComputation} {vs : List Nat}
    (hc : aget q caches = some cache) (he : aget h cache = some c)
    (hr : c.redefined = false)
    (hd : depVersions caches c.dependencies = some vs)
    (hm : c.version < maxOr1 vs) :
    decideRun caches q h = .ok (.recompute (maxOr1 vs)) := by
  unfold decideRun
  simp only [hc, he, hr, hd, if_neg (Bool.false_ne_true), if_neg (not_le.mpr hm)]

/-! ### The step decomposition of a run -/

theorem stepsSingle {a b : Database} (h : CStep a b) : Steps a b :=
  .tail a a b (.refl a) h

theorem stepsTrans {a b c : Database} (h1 : Steps a b) (h2 : Steps b c) :
    Steps a c := by
  induction h2 with
  | refl => exact h1
  | tail u v hstep hcs ih => exact .tail a u v ih hcs

theorem entryAt_insertFresh {db db1 : Database} {q : QName} {h : InputHash}
    {old : Nat} (H : insertFresh db q h old = .ok db1) :
    entryAt db1 q h = some (CachedComputation.new (old + 1)) := by
  obtain ⟨cache, hc, rfl⟩ := insertFresh_ok H
  rw [entryAt_eq_entryC]
  show entryC (aset q (aset h (CachedComputation.new (old + 1)) cache) db.caches) q h = _
  rw [entryC_set hc]
  simp

/-- Everything the rebuild path does to the database is a chain of
atomic steps, assuming the evaluator only produces chains of steps. -/
theorem recomputePhase_steps (evalBody : Database → (Except RunError Val) × Database)
    (db : Database) (q : QName) (h : InputHash) (old : Nat)
    (hdec : decideRun db.caches q h = .ok (.recompute old))
    (hev : ∀ d, Steps d (evalBody d).2) :
    Steps db (recomputePhase evalBody db q h old).2 := by
  unfold recomputePhase
  cases hif : insertFresh db q h old with
  | error e =>
    simp only [hif]
    exact Steps.refl db
  | ok db1 =>
    have s1 : CStep db db1 := .fresh q h old db db1 hdec hif
    simp only [hif]
    cases hrd : recordDep db1 q h with
    | error e =>
      simp only [hrd]
      exact stepsSingle s1
    | ok db2 =>
      have s2 : CStep db1 db2 := .dep q h _ db1 db2 (entryAt_insertFresh hif) hrd
      simp only [hrd]
      have s3 : CStep db2 { db2 with calls := db2.calls ++ [(q, h)] } :=
        .note db2 [(q, h)]
      have sAll : Steps db { db2 with calls := db2.calls ++ [(q, h)] } :=
        .tail _ _ _ (.tail _ _ _ (stepsSingle s1) s2) s3
      cases hev4 : evalBody { db2 with calls := db2.calls ++ [(q, h)] } with
      | mk r db4 =>
        have s4 : Steps db db4 := by
          have hx := hev { db2 with calls := db2.calls ++ [(q, h)] }
          rw [hev4] at hx
          exact stepsTrans sAll hx
        cases r with
        | error e =>
          simp only [hev4]
          exact s4
        | ok out =>
          simp only [hev4]
          cases hcm : commitRun db4 q h out with
          | error e =>
            simp only [hcm]
            exact s4
          | ok db5 =>
            simp only [hcm]
            exact .tail _ _ _ s4 (.commitS q h out db4 db5 hcm)

/-- Master lemma: a run only changes the database through chains of
atomic steps. -/
theorem execDb_steps : ∀ (f : Nat) (db : Database) (t : Task),
    Steps db (execDb f db t).2 := by
  intro f
  induction f with
  | zero =>
    intro db t
    simp only [execDb]
    exact Steps.refl db
  | succ f ih =>
    intro db t
    cases t with
    | prog p =>
      cases p with
      | ret v =>
        simp only [execDb]
        exact Steps.refl db
      | emit e rest =>
        simp only [execDb]
        exact stepsTrans (stepsSingle (.emitS db e)) (ih _ _)
      | call q i k =>
        simp only [execDb]
        cases hr : execDb f db (.runQ q i) with
        | mk r db1 =>
          have s1 : Steps db db1 := by
            have hx := ih db (.runQ q i)
            rw [hr] at hx
            exact hx
          cases r with
          | ok v =>
            simp only [hr]
            exact stepsTrans s1 (ih db1 (.prog (k v)))
          | error e =>
            simp only [hr]
            exact s1
    | runQ q i =>
      simp only [execDb]
      cases hf : aget q db.fns with
      | none =>
        simp only [hf]
        exact Steps.refl db
      | some body =>
        simp only [hf]
        cases hd : decideRun db.caches q (hashVal i) with
        | error e =>
          simp only [hd]
          exact Steps.refl db
        | ok dec =>
          cases dec with
          | hit v =>
            simp only [hd]
            exact Steps.refl db
          | cyc =>
            simp only [hd]
            exact Steps.refl db
          | recompute old =>
            simp only [hd]
            exact recomputePhase_steps _ db q (hashVal i) old hd
              (fun d => ih d (.prog (body i)))

theorem tryRun_steps (f : Nat) (db : Database) (q : QName) (i : Val) :
    Steps db (Database.tryRun f db q i).2 :=
  execDb_steps f db (.runQ q i)

/-- What an atomic step can look like: the registry is untouched, the
call log only grows, and the cache map is unchanged or rewrites exactly
one entry, either to a fresh Uninit entry at the decided version, or by
appending one extant pair to a dependency list, or by committing a value
and effects. -/
theorem cstep_shape {db db' : Database} (s : CStep db db') :
    db'.fns = db.fns ∧ (∃ l, db'.calls = db.calls ++ l) ∧
    (db'.caches = db.caches ∨
      ∃ q0 h0 cache c0, aget q0 db.caches = some cache ∧
        db'.caches = aset q0 (aset h0 c0 cache) db.caches ∧
        ((∃ old, decideRun db.caches q0 h0 = .ok (.recompute old) ∧
            c0 = CachedComputation.new (old + 1)) ∨
         (∃ tc p, aget h0 cache = some tc ∧
            c0 = { tc with dependencies := tc.dependencies ++ [p] } ∧
            entryAt db p.1 p.2 ≠ none) ∨
         (∃ cc ov effs, aget h0 cache = some cc ∧
            c0 = { cc with effects := effs, value := some ov }))) := by
  cases s with
  | fresh q0 h0 old db db1 hdec hif =>
    obtain ⟨cache, hc, rfl⟩ := insertFresh_ok hif
    refine ⟨rfl, ⟨[], by simp⟩, Or.inr ⟨q0, h0, cache, _, hc, rfl, ?_⟩⟩
    exact Or.inl ⟨old, hdec, rfl⟩
  | dep q0 h0 c db db1 hent hrd =>
    rcases recordDep_ok hrd with ⟨_, rfl⟩ | ⟨tq, th, rest, tcache, tc, _, hctq, hth, rfl⟩
    · exact ⟨rfl, ⟨[], by simp⟩, Or.inl rfl⟩
    · refine ⟨rfl, ⟨[], by simp⟩, Or.inr ⟨tq, th, tcache, _, hctq, rfl, ?_⟩⟩
      refine Or.inr (Or.inl ⟨tc, (q0, h0), hth, rfl, ?_⟩)
      rw [hent]
      simp
  | note db l => exact ⟨rfl, ⟨l, rfl⟩, Or.inl rfl⟩
  | emitS db e => exact ⟨rfl, ⟨[], by simp⟩, Or.inl rfl⟩
  | commitS q0 h0 out db db1 hcm =>
    obtain ⟨cache, cc, hc, he, rfl⟩ := commitRun_ok hcm
    refine ⟨rfl, ⟨[], by simp⟩, Or.inr ⟨q0, h0, cache, _, hc, rfl, ?_⟩⟩
    exact Or.inr (Or.inr ⟨cc, out, db.effects, he, rfl⟩)

theorem entryAt_congr {db db' : Database} (h : db'.caches = db.caches)
    (q : QName) (hh : InputHash) : entryAt db' q hh = entryAt db q hh := by
  rw [entryAt_eq_entryC, entryAt_eq_entryC, h]

theorem entryAt_update {db db' : Database} {q0 : QName} {h0 : InputHash}
    {cache : QCache} {c0 : CachedComputation}
    (hc : aget q0 db.caches = some cache)
    (hcc : db'.caches = aset q0 (aset h0 c0 cache) db.caches)
    (q : QName) (h : InputHash) :
    entryAt db' q h = if q = q0 ∧ h = h0 then some c0 else entryAt db q h := by
  simp only [entryAt_eq_entryC, hcc, entryC_set hc]

theorem entryAt_some_parts {db : Database} {q : QName} {h : InputHash}
    {c : CachedComputation} (hc : entryAt db q h = some c) :
    ∃ cache, aget q db.caches = some cache ∧ aget h cache = some c := by
  rw [entryAt_eq_entryC] at hc
  unfold entryC at hc
  cases hq : aget q db.caches with
  | none =>
    rw [hq] at hc
    exact (Option.noConfusion hc)
  | some cache =>
    rw [hq] at hc
    exact ⟨cache, rfl, hc⟩

theorem versionsLe_refl (db : Database) : versionsLe db db :=
  fun _ _ c hc => ⟨c, hc, le_refl _⟩

theorem versionsLe_trans {a b c : Database} (h1 : versionsLe a b)
    (h2 : versionsLe b c) : versionsLe a c := by
  intro q h e he
  obtain ⟨e1, he1, hv1⟩ := h1 q h e he
  obtain ⟨e2, he2, hv2⟩ := h2 q h e1 he1
  exact ⟨e2, he2, le_trans hv1 hv2⟩

/-- An atomic step never lowers the version of an extant entry (and
never removes an entry). -/
theorem cstep_versionsLe {db db' : Database} (s : CStep db db') :
    versionsLe db db' := by
  obtain ⟨-, -, hcache⟩ := cstep_shape s
  rcases hcache with heq | ⟨q0, h0, cache, c0, hc, hcc, hcases⟩
  · intro q h c hch
    rw [entryAt_congr heq]
    exact ⟨c, hch, le_refl _⟩
  · intro q h c hch
    rw [entryAt_update hc hcc q h]
    by_cases hqh : q = q0 ∧ h = h0
    · rw [if_pos hqh]
      obtain ⟨hq, hh⟩ := hqh
      subst hq
      subst hh
      obtain ⟨cache2, hc2, hche⟩ := entryAt_some_parts hch
      rw [hc] at hc2
      injection hc2 with hc2
      subst hc2
      refine ⟨c0, rfl, ?_⟩
      rcases hcases with ⟨old, hdec, rfl⟩ | ⟨tc, p, htc, rfl, -⟩ |
        ⟨cc, ov, effs, hcc2, rfl⟩
      · obtain ⟨cache3, hc3, hdisj⟩ := decideRun_recompute_inv hdec
        rw [hc] at hc3
        injection hc3 with hc3
        subst hc3
        rcases hdisj with ⟨hnone, -⟩ | ⟨c2, hsome, hdisj2⟩
        · rw [hche] at hnone
          exact (Option.noConfusion hnone)
        · rw [hche] at hsome
          injection hsome with hsome
          subst hsome
          rcases hdisj2 with ⟨-, hold⟩ | ⟨-, vs, -, hlt, hold⟩
          · simp only [CachedComputation.new]
            omega
          · simp only [CachedComputation.new]
            omega
      · rw [hche] at htc
        injection htc with htc
        subst htc
        exact le_refl _
      · rw [hche] at hcc2
        injection hcc2 with hcc2
        subst hcc2
        exact le_refl _
    · rw [if_neg hqh]
      exact ⟨c, hch, le_refl _⟩

theorem steps_versionsLe {db db' : Database} (st : Steps db db') :
    versionsLe db db' := by
  induction st with
  | refl => exact versionsLe_refl _
  | tail u v hstep hcs ih => exact versionsLe_trans ih (cstep_versionsLe hcs)

theorem steps_fns {db db' : Database} (st : Steps db db') : db'.fns = db.fns := by
  induction st with
  | refl => rfl
  | tail u v hstep hcs ih => exact (cstep_shape hcs).1.trans ih

theorem steps_calls {db db' : Database} (st : Steps db db') :
    ∃ l, db'.calls = db.calls ++ l := by
  induction st with
  | refl => exact ⟨[], by simp⟩
  | tail u v hstep hcs ih =>
    obtain ⟨l1, hl1⟩ := ih
    obtain ⟨-, ⟨l2, hl2⟩, -⟩ := cstep_shape hcs
    exact ⟨l1 ++ l2, by rw [hl2, hl1, List.append_assoc]⟩

theorem steps_presence {db db' : Database} (st : Steps db db') {q : QName}
    {h : InputHash} (hp : (entryAt db q h).isSome = true) :
    (entryAt db' q h).isSome = true := by
  cases hc : entryAt db q h with
  | none => rw [hc] at hp; simp at hp
  | some c =>
    obtain ⟨c', hc', -⟩ := steps_versionsLe st q h c hc
    rw [hc']
    rfl

/-! ### maxOr1 and depVersions lemmas -/

theorem foldl_max_le {n : Nat} :
    ∀ (l : List Nat) (a : Nat), a ≤ n → (∀ v ∈ l, v ≤ n) →
      l.foldl Nat.max a ≤ n := by
  intro l
  induction l with
  | nil => intro a ha _; simpa using ha
  | cons x rest ih =>
    intro a ha hl
    simp only [List.foldl_cons]
    exact ih (Nat.max a x)
      (Nat.max_le.mpr ⟨ha, hl x (List.mem_cons_self _ _)⟩)
      (fun v hv => hl v (List.mem_cons_of_mem _ hv))

theorem maxOr1_le {vs : List Nat} {n : Nat} (hn : 1 ≤ n)
    (h : ∀ v ∈ vs, v ≤ n) : maxOr1 vs ≤ n := by
  cases vs with
  | nil => simpa [maxOr1] using hn
  | cons v rest =>
    unfold maxOr1
    exact foldl_max_le rest v (h v (List.mem_cons_self _ _))
      (fun w hw => h w (List.mem_cons_of_mem _ hw))

theorem depVersions_mem {caches : CacheMap} :
    ∀ {deps : List (QName × InputHash)} {vs : List Nat},
      depVersions caches deps = some vs →
      ∀ v ∈ vs, ∃ q h cache c, aget q caches = some cache ∧
        aget h cache = some c ∧ c.version = v := by
  intro deps
  induction deps with
  | nil =>
    intro vs hd
    unfold depVersions at hd
    injection hd with hd
    subst hd
    simp
  | cons d rest ih =>
    intro vs hd
    obtain ⟨f, k⟩ := d
    unfold depVersions at hd
    cases h1 : aget f caches with
    | none =>
      simp only [h1] at hd
      exact (Option.noConfusion hd)
    | some cache =>
      simp only [h1] at hd
      cases h2 : aget k cache with
      | none =>
        simp only [h2] at hd
        exact (Option.noConfusion hd)
      | some c =>
        simp only [h2] at hd
        cases h3 : depVersions caches rest with
        | none =>
          simp only [h3] at hd
          exact (Option.noConfusion hd)
        | some vs' =>
          simp only [h3] at hd
          injection hd with hd
          subst hd
          intro v hv
          rcases List.mem_cons.mp hv with rfl | hv'
          · exact ⟨f, k, cache, c, h1, h2, rfl⟩
          · exact ih h3 v hv'

/-- If every dependency in the list resolves, depVersions succeeds. -/
theorem depVersions_total {db : Database} :
    ∀ {deps : List (QName × InputHash)},
      (∀ d ∈ deps, (entryAt db d.1 d.2).isSome = true) →
      ∃ vs, depVersions db.caches deps = some vs := by
  intro deps
  induction deps with
  | nil => intro _; exact ⟨[], rfl⟩
  | cons d rest ih =>
    intro hall
    obtain ⟨f, k⟩ := d
    have hd : (entryAt db f k).isSome = true :=
      hall (f, k) (List.mem_cons_self _ _)
    cases he : entryAt db f k with
    | none => rw [he] at hd; simp at hd
    | some c =>
      obtain ⟨cache, h1, h2⟩ := entryAt_some_parts he
      obtain ⟨vs, hvs⟩ := ih (fun d hd2 => hall d (List.mem_cons_of_mem _ hd2))
      refine ⟨c.version :: vs, ?_⟩
      unfold depVersions
      simp only [h1, h2, hvs]

/-! ### Preservation of the state predicates by atomic steps -/

theorem entriesP_lookup {P : CachedComputation → Prop} {caches : CacheMap}
    {q : QName} {cache : QCache} {h : InputHash} {c : CachedComputation}
    (hall : entriesP P caches) (hc : aget q caches = some cache)
    (he : aget h cache = some c) : P c :=
  hall _ (aget_some_mem hc) _ (aget_some_mem he)

theorem entriesP_aset {P : CachedComputation → Prop} {caches : CacheMap}
    {q : QName} {cache : QCache} {h0 : InputHash} {c0 : CachedComputation}
    (hc : aget q caches = some cache) (hall : entriesP P caches)
    (h0p : P c0) : entriesP P (aset q (aset h0 c0 cache) caches) := by
  intro p hp e he
  rcases mem_aset hp with rfl | hp'
  · rcases mem_aset he with rfl | he'
    · exact h0p
    · exact hall _ (aget_some_mem hc) _ he'
  · exact hall _ hp' _ he

theorem allOne_entry {db : Database} {q : QName} {h : InputHash}
    {c : CachedComputation} (hall : allOne db) (hc : entryAt db q h = some c) :
    c.version = 1 ∧ c.redefined = false := by
  obtain ⟨cache, h1, h2⟩ := entryAt_some_parts hc
  exact entriesP_lookup hall h1 h2

theorem cstep_allOne {db db' : Database} (s : CStep db db') (hall : allOne db) :
    allOne db' := by
  obtain ⟨-, -, hcache⟩ := cstep_shape s
  rcases hcache with heq | ⟨q0, h0, cache, c0, hc, hcc, hcases⟩
  · unfold allOne at hall ⊢
    rw [heq]
    exact hall
  · unfold allOne at hall ⊢
    rw [hcc]
    refine entriesP_aset hc hall ?_
    rcases hcases with ⟨old, hdec, rfl⟩ | ⟨tc, p, htc, rfl, -⟩ |
      ⟨cc, ov, effs, hcc2, rfl⟩
    · -- the decision can only be a miss when every version is 1
      obtain ⟨cache3, hc3, hdisj⟩ := decideRun_recompute_inv hdec
      rw [hc] at hc3
      injection hc3 with hc3
      subst hc3
      rcases hdisj with ⟨-, hold⟩ | ⟨c2, hsome, hdisj2⟩
      · subst hold
        exact ⟨rfl, rfl⟩
      · exfalso
        obtain ⟨hv2, hr2⟩ := entriesP_lookup hall hc hsome
        rcases hdisj2 with ⟨hred, -⟩ | ⟨-, vs, hvs, hlt, -⟩
        · rw [hr2] at hred
          exact (Bool.noConfusion hred)
        · have hle : maxOr1 vs ≤ 1 := by
            refine maxOr1_le (le_refl 1) ?_
            intro v hv
            obtain ⟨q2, h2, cache2, c2', ha, hb, hver⟩ := depVersions_mem hvs v hv
            obtain ⟨hv1, -⟩ := entriesP_lookup hall ha hb
            omega
          omega
    · obtain ⟨hv, hr⟩ := entriesP_lookup hall hc htc
      exact ⟨hv, hr⟩
    · obtain ⟨hv, hr⟩ := entriesP_lookup hall hc hcc2
      exact ⟨hv, hr⟩

theorem cstep_posVersions {db db' : Database} (s : CStep db db')
    (hall : posVersions db) : posVersions db' := by
  obtain ⟨-, -, hcache⟩ := cstep_shape s
  rcases hcache with heq | ⟨q0, h0, cache, c0, hc, hcc, hcases⟩
  · unfold posVersions at hall ⊢
    rw [heq]
    exact hall
  · unfold posVersions at hall ⊢
    rw [hcc]
    refine entriesP_aset hc hall ?_
    rcases hcases with ⟨old, -, rfl⟩ | ⟨tc, p, htc, rfl, -⟩ |
      ⟨cc, ov, effs, hcc2, rfl⟩
    · simp [CachedComputation.new]
    · have h1 : 1 ≤ tc.version := entriesP_lookup hall hc htc
      simpa using h1
    · have h1 : 1 ≤ cc.version := entriesP_lookup hall hc hcc2
      simpa using h1

theorem cstep_keysSync {db db' : Database} (s : CStep db db')
    (hks : keysSync db) : keysSync db' := by
  obtain ⟨hfns, -, hcache⟩ := cstep_shape s
  intro p hp
  rw [hfns]
  rcases hcache with heq | ⟨q0, h0, cache, c0, hc, hcc, -⟩
  · rw [heq] at hp
    exact hks _ hp
  · rw [hcc] at hp
    rcases mem_aset hp with rfl | hp'
    · exact hks (q0, cache) (aget_some_mem hc)
    · exact hks _ hp'

theorem cstep_noDangling {db db' : Database} (s : CStep db db')
    (hnd : noDangling db) : noDangling db' := by
  have hpres : ∀ (dq : QName) (dh : InputHash),
      (entryAt db dq dh).isSome = true → (entryAt db' dq dh).isSome = true := by
    intro dq dh hp
    cases he : entryAt db dq dh with
    | none => rw [he] at hp; simp at hp
    | some c =>
      obtain ⟨c', hc', -⟩ := cstep_versionsLe s dq dh c he
      rw [hc']
      rfl
  obtain ⟨-, -, hcache⟩ := cstep_shape s
  rcases hcache with heq | ⟨q0, h0, cache, c0, hc, hcc, hcases⟩
  · intro p hp e he d hd
    rw [heq] at hp
    exact hpres _ _ (hnd _ hp _ he d hd)
  · intro p hp e he d hd
    apply hpres
    rw [hcc] at hp
    rcases mem_aset hp with rfl | hp'
    · rcases mem_aset he with rfl | he'
      · rcases hcases with ⟨old, -, rfl⟩ | ⟨tc, pr, htc, rfl, hpr⟩ |
          ⟨cc, ov, effs, hcc2, rfl⟩
        · simp [CachedComputation.new] at hd
        · simp only [] at hd
          rcases List.mem_append.mp hd with hd' | hd'
          · exact hnd _ (aget_some_mem hc) _ (aget_some_mem htc) d hd'
          · have : d = pr := by simpa using hd'
            subst this
            cases hx : entryAt db d.1 d.2 with
            | none => exact absurd hx hpr
            | some c => rfl
        · exact hnd _ (aget_some_mem hc) _ (aget_some_mem hcc2) d hd
      · exact hnd _ (aget_some_mem hc) _ he' d hd
    · exact hnd _ hp' _ he d hd

theorem cstep_redefClear {db db' : Database} {q : QName} {h : InputHash}
    (s : CStep db db') (hrc : redefClear db q h) : redefClear db' q h := by
  obtain ⟨-, -, hcache⟩ := cstep_shape s
  rcases hcache with heq | ⟨q0, h0, cache, c0, hc, hcc, hcases⟩
  · intro c hch
    rw [entryAt_congr heq] at hch
    exact hrc c hch
  · intro c hch
    rw [entryAt_update hc hcc q h] at hch
    by_cases hqh : q = q0 ∧ h = h0
    · rw [if_pos hqh] at hch
      injection hch with hch
      subst hch
      obtain ⟨hq, hh⟩ := hqh
      subst hq
      subst hh
      rcases hcases with ⟨old, -, rfl⟩ | ⟨tc, pr, htc, rfl, -⟩ |
        ⟨cc, ov, effs, hcc2, rfl⟩
      · rfl
      · exact hrc tc (by rw [entryAt_eq_entryC, entryC, hc]; exact htc)
      · exact hrc cc (by rw [entryAt_eq_entryC, entryC, hc]; exact hcc2)
    · rw [if_neg hqh] at hch
      exact hrc c hch

theorem steps_allOne {db db' : Database} (st : Steps db db') (hall : allOne db) :
    allOne db' := by
  induction st with
  | refl => exact hall
  | tail u v hstep hcs ih => exact cstep_allOne hcs ih

theorem steps_posVersions {db db' : Database} (st : Steps db db')
    (hall : posVersions db) : posVersions db' := by
  induction st with
  | refl => exact hall
  | tail u v hstep hcs ih => exact cstep_posVersions hcs ih

theorem steps_keysSync {db db' : Database} (st : Steps db db')
    (hks : keysSync db) : keysSync db' := by
  induction st with
  | refl => exact hks
  | tail u v hstep hcs ih => exact cstep_keysSync hcs ih

theorem steps_noDangling {db db' : Database} (st : Steps db db')
    (hnd : noDangling db) : noDangling db' := by
  induction st with
  | refl => exact hnd
  | tail u v hstep hcs ih => exact cstep_noDangling hcs ih

theorem steps_redefClear {db db' : Database} {q : QName} {h : InputHash}
    (st : Steps db db') (hrc : redefClear db q h) : redefClear db' q h := by
  induction st with
  | refl => exact hrc
  | tail u v hstep hcs ih => exact cstep_redefClear hcs ih

/-! ### register and operation-sequence lemmas -/

theorem register_versionsLe {db db' : Database} {q : QName} {f : Body}
    (hks : keysSync db) (H : Database.register db q f = .ok db') :
    versionsLe db db' := by
  rcases register_ok H with ⟨hr, rfl⟩ | ⟨cache, hr, hc, rfl⟩
  · intro q2 h2 c hch
    by_cases hq : q2 = q
    · subst hq
      obtain ⟨cache, h1, -⟩ := entryAt_some_parts hch
      have := hks (q2, cache) (aget_some_mem h1)
      simp only at this
      rw [this] at hr
      exact (Bool.noConfusion hr)
    · refine ⟨c, ?_, le_refl _⟩
      rw [entryAt_eq_entryC] at hch ⊢
      show entryC (aset q [] db.caches) q2 h2 = some c
      unfold entryC
      rw [aget_aset_ne hq]
      exact hch
  · intro q2 h2 c hch
    obtain ⟨cache2, h1, h2e⟩ := entryAt_some_parts hch
    by_cases hq : q2 = q
    · subst hq
      rw [hc] at h1
      injection h1 with h1
      subst h1
      refine ⟨bumpEntry c, ?_, ?_⟩
      · rw [entryAt_eq_entryC]
        show entryC (aset q2 (cache.map (fun e => (e.1, bumpEntry e.2)))
          db.caches) q2 h2 = _
        unfold entryC
        rw [aget_aset_self]
        show aget h2 (cache.map (fun e => (e.1, bumpEntry e.2))) = _
        rw [aget_map_snd, h2e]
        rfl
      · unfold bumpEntry
        simp
    · refine ⟨c, ?_, le_refl _⟩
      rw [entryAt_eq_entryC]
      show entryC (aset q (cache.map (fun e => (e.1, bumpEntry e.2))) db.caches) q2 h2 = _
      unfold entryC
      rw [aget_aset_ne hq, h1]
      exact h2e

theorem register_keysSync {db db' : Database} {q : QName} {f : Body}
    (hks : keysSync db) (H : Database.register db q f = .ok db') :
    keysSync db' := by
  rcases register_ok H with ⟨hr, rfl⟩ | ⟨cache, hr, hc, rfl⟩ <;>
  · intro p hp
    simp only at hp ⊢
    rcases mem_aset hp with rfl | hp'
    · simp [aget_aset_self]
    · by_cases hq : p.1 = q
      · rw [hq, aget_aset_self]
        rfl
      · rw [aget_aset_ne hq]
        exact hks _ hp'

theorem register_posVersions {db db' : Database} {q : QName} {f : Body}
    (hp : posVersions db) (H : Database.register db q f = .ok db') :
    posVersions db' := by
  rcases register_ok H with ⟨hr, rfl⟩ | ⟨cache, hr, hc, rfl⟩ <;>
    intro p hpm e he
  · rcases mem_aset hpm with rfl | hp'
    · simp at he
    · exact hp _ hp' _ he
  · rcases mem_aset hpm with rfl | hp'
    · simp only at he
      obtain ⟨e0, he0, heq⟩ := List.mem_map.mp he
      have h1 : 1 ≤ e0.2.version := hp _ (aget_some_mem hc) _ he0
      rw [← heq]
      simp only [bumpEntry]
      omega
    · exact hp _ hp' _ he

theorem run_snd (f : Nat) (db : Database) (q : QName) (i : Val) :
    (Database.run f db q i).2 = (Database.tryRun f db q i).2 := by
  unfold Database.run
  rcases h : Database.tryRun f db q i with ⟨r, db2⟩
  cases r <;> simp

theorem applyOp_versionsLe (db : Database) (op : Op) (hks : keysSync db) :
    versionsLe db (applyOp db op) ∧ keysSync (applyOp db op) := by
  cases op with
  | reg q f =>
    simp only [applyOp]
    cases H : Database.register db q f with
    | ok db2 =>
      exact ⟨register_versionsLe hks H, register_keysSync hks H⟩
    | error e =>
      exact ⟨versionsLe_refl db, hks⟩
  | tryRunOp fuel q i =>
    simp only [applyOp]
    exact ⟨steps_versionsLe (tryRun_steps fuel db q i),
      steps_keysSync (tryRun_steps fuel db q i) hks⟩
  | runOp fuel q i =>
    simp only [applyOp]
    rw [run_snd]
    exact ⟨steps_versionsLe (tryRun_steps fuel db q i),
      steps_keysSync (tryRun_steps fuel db q i) hks⟩
  | eff e =>
    simp only [applyOp, Database.doEffect]
    refine ⟨?_, ?_⟩
    · intro q2 h2 c hch
      exact ⟨c, hch, le_refl _⟩
    · intro p hp
      exact hks p hp

theorem applyOp_posVersions (db : Database) (op : Op) (hp : posVersions db) :
    posVersions (applyOp db op) := by
  cases op with
  | reg q f =>
    simp only [applyOp]
    cases H : Database.register db q f with
    | ok db2 => exact register_posVersions hp H
    | error e => exact hp
  | tryRunOp fuel q i =>
    simp only [applyOp]
    exact steps_posVersions (tryRun_steps fuel db q i) hp
  | runOp fuel q i =>
    simp only [applyOp]
    rw [run_snd]
    exact steps_posVersions (tryRun_steps fuel db q i) hp
  | eff e =>
    exact hp

theorem applyOps_versionsLe (ops : List Op) :
    ∀ db : Database, keysSync db →
      versionsLe db (applyOps db ops) ∧ keysSync (applyOps db ops) ∧
      (posVersions db → posVersions (applyOps db ops)) := by
  induction ops with
  | nil =>
    intro db hks
    exact ⟨versionsLe_refl db, hks, fun hp => hp⟩
  | cons op rest ih =>
    intro db hks
    obtain ⟨hle1, hks1⟩ := applyOp_versionsLe db op hks
    obtain ⟨hle2, hks2, hpos2⟩ := ih (applyOp db op) hks1
    refine ⟨versionsLe_trans hle1 hle2, hks2, ?_⟩
    intro hp
    exact hpos2 (applyOp_posVersions db op hp)

/-! ### try_run level lemmas -/

theorem entryAt_mk {db : Database} {q : QName} {h : InputHash} {cache : QCache}
    {c : CachedComputation} (hc : aget q db.caches = some cache)
    (he : aget h cache = some c) : entryAt db q h = some c := by
  rw [entryAt_eq_entryC]
  unfold entryC
  simp only [hc]
  exact he

/-- A valid cached entry is returned as a hit, with the database
untouched (in particular no dependency is recorded anywhere). -/
theorem tryRun_hit {f : Nat} {db : Database} {q : QName} {i : Val} {body : Body}
    {cache : QCache} {c : CachedComputation} {vs : List Nat} {v : Val}
    (hf : aget q db.fns = some body)
    (hc : aget q db.caches = some cache)
    (he : aget (hashVal i) cache = some c)
    (hr : c.redefined = false)
    (hd : depVersions db.caches c.dependencies = some vs)
    (hm : maxOr1 vs ≤ c.version)
    (hv : c.value = some v) :
    Database.tryRun (f + 1) db q i = (.ok v, db) := by
  unfold Database.tryRun
  have hdec := decideRun_hit_of hc he hr hd hm hv
  simp only [execDb, hf, hdec]

/-- Consulting a valid Uninit entry yields CycleError, with the database
untouched. -/
theorem tryRun_cyc {f : Nat} {db : Database} {q : QName} {i : Val} {body : Body}
    {cache : QCache} {c : CachedComputation} {vs : List Nat}
    (hf : aget q db.fns = some body)
    (hc : aget q db.caches = some cache)
    (he : aget (hashVal i) cache = some c)
    (hr : c.redefined = false)
    (hd : depVersions db.caches c.dependencies = some vs)
    (hm : maxOr1 vs ≤ c.version)
    (hv : c.value = none) :
    Database.tryRun (f + 1) db q i = (.error .cycle, db) := by
  unfold Database.tryRun
  have hdec := decideRun_cyc_of hc he hr hd hm hv
  simp only [execDb, hf, hdec]

/-- When the decision is a rebuild, try_run is exactly the rebuild
phase applied to the body evaluator. -/
theorem tryRun_route {f : Nat} {db : Database} {q : QName} {i : Val}
    {body : Body} {old : Nat}
    (hf : aget q db.fns = some body)
    (hdec : decideRun db.caches q (hashVal i) = .ok (.recompute old)) :
    Database.tryRun (f + 1) db q i =
      recomputePhase (fun d => execDb f d (.prog (body i))) db q (hashVal i) old := by
  unfold Database.tryRun
  simp only [execDb, hf, hdec]

theorem decideRun_hit_inv {caches : CacheMap} {q : QName} {h : InputHash}
    {v : Val} (H : decideRun caches q h = .ok (.hit v)) :
    ∃ cache c vs, aget q caches = some cache ∧ aget h cache = some c ∧
      c.redefined = false ∧ depVersions caches c.dependencies = some vs ∧
      maxOr1 vs ≤ c.version ∧ c.value = some v := by
  unfold decideRun at H
  cases hc : aget q caches with
  | none =>
    simp only [hc] at H
    exact (Except.noConfusion H)
  | some cache =>
    simp only [hc] at H
    cases he : aget h cache with
    | none =>
      simp only [he] at H
      injection H with H
      exact (Decision.noConfusion H)
    | some c =>
      simp only [he] at H
      by_cases hr : c.redefined = true
      · rw [if_pos hr] at H
        injection H with H
        exact (Decision.noConfusion H)
      · rw [if_neg hr] at H
        cases hd : depVersions caches c.dependencies with
        | none =>
          simp only [hd] at H
          exact (Except.noConfusion H)
        | some vs =>
          simp only [hd] at H
          by_cases hm : maxOr1 vs ≤ c.version
          · rw [if_pos hm] at H
            cases hv : c.value with
            | some w =>
              simp only [hv] at H
              injection H with H
              injection H with H
              subst H
              exact ⟨cache, c, vs, rfl, he, by simpa using hr, hd, hm, hv⟩
            | none =>
              simp only [hv] at H
              injection H with H
              exact (Decision.noConfusion H)
          · rw [if_neg hm] at H
            injection H with H
            exact (Decision.noConfusion H)

/-- A successful rebuild commits the returned value on the entry of the
rebuilt pair, with a clear redefined flag. -/
theorem recomputePhase_ok {evalBody : Database → (Except RunError Val) × Database}
    {db : Database} {q : QName} {h : InputHash} {old : Nat} {v : Val}
    {db' : Database} (hev : ∀ d, Steps d (evalBody d).2)
    (H : recomputePhase evalBody db q h old = (.ok v, db')) :
    ∃ c, entryAt db' q h = some c ∧ c.value = some v ∧
      c.redefined = false := by
  unfold recomputePhase at H
  cases hif : insertFresh db q h old with
  | error e =>
    simp only [hif] at H
    injection H with h1 h2
    exact (Except.noConfusion h1)
  | ok db1 =>
    simp only [hif] at H
    cases hrd : recordDep db1 q h with
    | error e =>
      simp only [hrd] at H
      injection H with h1 h2
      exact (Except.noConfusion h1)
    | ok db2 =>
      simp only [hrd] at H
      cases hev4 : evalBody { db2 with calls := db2.calls ++ [(q, h)] } with
      | mk r db4 =>
        cases r with
        | error e =>
          simp only [hev4] at H
          injection H with h1 h2
          exact (Except.noConfusion h1)
        | ok out =>
          simp only [hev4] at H
          cases hcm : commitRun db4 q h out with
          | error e =>
            simp only [hcm] at H
            injection H with h1 h2
            exact (Except.noConfusion h1)
          | ok db5 =>
            simp only [hcm] at H
            injection H with h1 h2
            injection h1 with h1
            subst h1
            subst h2
            -- the redefined flag of the pre-commit entry is clear
            have hrc1 : redefClear db1 q h := by
              intro c hch
              rw [entryAt_insertFresh hif] at hch
              injection hch with hch
              subst hch
              rfl
            have hrc2 : redefClear db2 q h :=
              cstep_redefClear
                (.dep q h _ db1 db2 (entryAt_insertFresh hif) hrd) hrc1
            have hrc3 : redefClear { db2 with calls := db2.calls ++ [(q, h)] } q h :=
              cstep_redefClear (.note db2 [(q, h)]) hrc2
            have hrc4 : redefClear db4 q h := by
              have hst := hev { db2 with calls := db2.calls ++ [(q, h)] }
              rw [hev4] at hst
              exact steps_redefClear hst hrc3
            obtain ⟨cache, cc, hc, he, rfl⟩ := commitRun_ok hcm
            have hcc5 : ({ db4 with
                stack := db4.stack.tail,
                effects := [],
                caches := aset q
                  (aset h { cc with effects := db4.effects, value := some out }
                    cache) db4.caches } : Database).caches =
                aset q (aset h { cc with effects := db4.effects, value := some out }
                  cache) db4.caches := rfl
            refine ⟨{ cc with effects := db4.effects, value := some out }, ?_, rfl, ?_⟩
            · rw [entryAt_update hc hcc5 q h]
              simp
            · exact hrc4 cc (entryAt_mk hc he)

theorem tryRun_ok_fns {f : Nat} {db : Database} {q : QName} {i : Val} {v : Val}
    {db' : Database} (H : Database.tryRun f db q i = (.ok v, db')) :
    ∃ body, aget q db.fns = some body := by
  cases f with
  | zero =>
    unfold Database.tryRun at H
    simp only [execDb] at H
    injection H with h1 h2
    exact (Except.noConfusion h1)
  | succ f =>
    unfold Database.tryRun at H
    simp only [execDb] at H
    cases hf : aget q db.fns with
    | none =>
      simp only [hf] at H
      injection H with h1 h2
      exact (Except.noConfusion h1)
    | some body => exact ⟨body, rfl⟩

/-- A successful try_run leaves the entry of the consulted pair holding
the returned value, committed and not redefined. -/
theorem tryRun_value {f : Nat} {db : Database} {q : QName} {i : Val} {v : Val}
    {db' : Database} (H : Database.tryRun f db q i = (.ok v, db')) :
    ∃ c, entryAt db' q (hashVal i) = some c ∧ c.value = some v ∧
      c.redefined = false := by
  cases f with
  | zero =>
    unfold Database.tryRun at H
    simp only [execDb] at H
    injection H with h1 h2
    exact (Except.noConfusion h1)
  | succ f =>
    unfold Database.tryRun at H
    simp only [execDb] at H
    cases hf : aget q db.fns with
    | none =>
      simp only [hf] at H
      injection H with h1 h2
      exact (Except.noConfusion h1)
    | some body =>
      simp only [hf] at H
      cases hd : decideRun db.caches q (hashVal i) with
      | error e =>
        simp only [hd] at H
        injection H with h1 h2
        exact (Except.noConfusion h1)
      | ok dec =>
        cases dec with
        | hit w =>
          simp only [hd] at H
          injection H with h1 h2
          injection h1 with h1
          subst h1
          subst h2
          obtain ⟨cache, c, vs, hc, he, hr, -, -, hv⟩ := decideRun_hit_inv hd
          exact ⟨c, entryAt_mk hc he, hv, hr⟩
        | cyc =>
          simp only [hd] at H
          injection H with h1 h2
          exact (Except.noConfusion h1)
        | recompute old =>
          simp only [hd] at H
          exact recomputePhase_ok
            (fun d => execDb_steps f d (.prog (body i))) H

/-- From a never-redefined state, a successful run makes the immediately
following run of the same pair a pure cache hit: same value, database
unchanged (so no body is entered). -/
theorem tryRun_idem {f g : Nat} {db : Database} {q : QName} {i : Val} {v : Val}
    {db' : Database} (hall : allOne db) (hnd : noDangling db)
    (H : Database.tryRun f db q i = (.ok v, db')) :
    Database.tryRun (g + 1) db' q i = (.ok v, db') := by
  have hsteps : Steps db db' := by
    have hs := tryRun_steps f db q i
    rw [H] at hs
    exact hs
  have hall' := steps_allOne hsteps hall
  have hnd' := steps_noDangling hsteps hnd
  obtain ⟨c, hce, hcv, hcr⟩ := tryRun_value H
  obtain ⟨cache, hc1, hc2⟩ := entryAt_some_parts hce
  obtain ⟨body, hbody⟩ := tryRun_ok_fns H
  have hbody' : aget q db'.fns = some body := by
    rw [steps_fns hsteps]
    exact hbody
  have hdeps : ∀ d ∈ c.dependencies, (entryAt db' d.1 d.2).isSome = true :=
    fun d hd => hnd' _ (aget_some_mem hc1) _ (aget_some_mem hc2) d hd
  obtain ⟨vs, hvs⟩ := @depVersions_total db' c.dependencies hdeps
  have hm : maxOr1 vs ≤ c.version := by
    obtain ⟨h1, -⟩ := allOne_entry hall' hce
    rw [h1]
    refine maxOr1_le (le_refl 1) ?_
    intro w hw
    obtain ⟨q2, h2, cache2, c2, ha, hb, hver⟩ := depVersions_mem hvs w hw
    obtain ⟨hv1, -⟩ := allOne_entry hall' (entryAt_mk ha hb)
    omega
  exact tryRun_hit hbody' hc1 hc2 hcr hvs hm hcv

/-! ### Re-entry lemmas: when a rebuild actually enters the body -/

theorem recordDep_total {db : Database} {q : QName} {h : InputHash}
    (hst : db.stack = [] ∨ ∃ tq th rest tc, db.stack = (tq, th) :: rest ∧
      entryAt db tq th = some tc) :
    ∃ db2, recordDep db q h = .ok db2 ∧ db2.calls = db.calls := by
  unfold recordDep
  rcases hst with hnil | ⟨tq, th, rest, tc, hcons, hent⟩
  · simp only [hnil]
    exact ⟨_, rfl, rfl⟩
  · obtain ⟨tcache, h1, h2⟩ := entryAt_some_parts hent
    simp only [hcons, h1, h2]
    exact ⟨_, rfl, rfl⟩

/-- On the rebuild path, the consulted pair is appended to the ghost
call log: the body is entered. This holds whether the body then
completes, aborts, or runs further queries. -/
theorem tryRun_reenters {f : Nat} {db : Database} {q : QName} {i : Val}
    {body : Body} {old : Nat}
    (hf : aget q db.fns = some body)
    (hdec : decideRun db.caches q (hashVal i) = .ok (.recompute old))
    (hst : db.stack = [] ∨ ∃ tq th rest tc, db.stack = (tq, th) :: rest ∧
      entryAt db tq th = some tc) :
    ∃ rest2, (Database.tryRun (f + 1) db q i).2.calls =
      db.calls ++ (q, hashVal i) :: rest2 := by
  rw [tryRun_route hf hdec]
  obtain ⟨cache, hcch, -⟩ := decideRun_recompute_inv hdec
  have hif : insertFresh db q (hashVal i) old = .ok { db with
      caches := aset q (aset (hashVal i) (CachedComputation.new (old + 1)) cache)
        db.caches } := by
    unfold insertFresh
    simp only [hcch]
  unfold recomputePhase
  simp only [hif]
  have hst1 : ({ db with
      caches := aset q (aset (hashVal i) (CachedComputation.new (old + 1)) cache)
        db.caches } : Database).stack = [] ∨
      ∃ tq th rest tc, ({ db with
        caches := aset q (aset (hashVal i) (CachedComputation.new (old + 1)) cache)
          db.caches } : Database).stack = (tq, th) :: rest ∧
        entryAt { db with
          caches := aset q (aset (hashVal i) (CachedComputation.new (old + 1)) cache)
            db.caches } tq th = some tc := by
    rcases hst with hnil | ⟨tq, th, rest, tc, hcons, hent⟩
    · exact Or.inl hnil
    · refine Or.inr ⟨tq, th, rest, ?_⟩
      rw [entryAt_update hcch rfl tq th]
      by_cases hqh : tq = q ∧ th = hashVal i
      · exact ⟨CachedComputation.new (old + 1), hcons, by rw [if_pos hqh]⟩
      · exact ⟨tc, hcons, by rw [if_neg hqh]; exact hent⟩
  obtain ⟨db2, hrd, hcalls2⟩ := @recordDep_total _ q (hashVal i) hst1
  simp only [hrd]
  rcases hev : execDb f { db2 with calls := db2.calls ++ [(q, hashVal i)] }
      (.prog (body i)) with ⟨r, db4⟩
  have hc4 : ∃ l, db4.calls = db.calls ++ ((q, hashVal i) :: l) := by
    have hsteps := execDb_steps f { db2 with calls := db2.calls ++ [(q, hashVal i)] }
      (.prog (body i))
    rw [hev] at hsteps
    obtain ⟨l, hl⟩ := steps_calls hsteps
    refine ⟨l, ?_⟩
    rw [hl]
    simp only [hcalls2]
    simp
  cases r with
  | error e =>
    simp only [hev]
    exact hc4
  | ok out =>
    simp only [hev]
    cases hcm : commitRun db4 q (hashVal i) out with
    | error e =>
      simp only [hcm]
      exact hc4
    | ok db5 =>
      simp only [hcm]
      obtain ⟨cache5, cc5, -, -, rfl⟩ := commitRun_ok hcm
      exact hc4

/-! ### The claims -/

/-- Claim C1, counterexample: a consultation answered from the cache is
not recorded as a dependency of the caller. After running b once, the
query c (whose body literally consults b — its result 8 is b plus one)
commits an empty dependency list, so the committed dependencies do not
contain the consulted pair ("b", 0). -/
theorem c1_hit_not_recorded_cex :
    valueAt hitDb1 "b" 0 = some (some (.nat 7)) ∧
    Database.tryRun 50 hitDb1 "c" Val.unit = (.ok (.nat 8), hitDb2) ∧
    depsAt hitDb2 "c" 0 = some [] :=
  ⟨rfl, rfl, rfl⟩

/-- Claim C1, amended: a nested consultation is recorded as a dependency
of the current top-of-stack entry, appended in call order at the end of
its list, before the consulted body would execute — but only when the
consultation takes the rebuild path; a consultation answered from the
cache returns with the database exactly unchanged, recording nothing.
Part one is the hit path (the database is returned untouched); part two
is the recording step of the rebuild path (the pair is appended at the
end of the dependency list of the stack top while the pair is pushed);
part three routes the rebuild path of try_run through that recording
step before the body evaluator runs. -/
theorem c1_dependency_recording_amended :
    (∀ (f : Nat) (db : Database) (q : QName) (i : Val) (body : Body)
        (cache : QCache) (c : CachedComputation) (vs : List Nat) (v : Val),
      aget q db.fns = some body → aget q db.caches = some cache →
      aget (hashVal i) cache = some c → c.redefined = false →
      depVersions db.caches c.dependencies = some vs → maxOr1 vs ≤ c.version →
      c.value = some v →
      Database.tryRun (f + 1) db q i = (.ok v, db)) ∧
    (∀ (db : Database) (q : QName) (h : InputHash) (tq : QName)
        (th : InputHash) (rest : List (QName × InputHash))
        (tc : CachedComputation),
      db.stack = (tq, th) :: rest → entryAt db tq th = some tc →
      ∃ db2, recordDep db q h = .ok db2 ∧
        entryAt db2 tq th =
          some { tc with dependencies := tc.dependencies ++ [(q, h)] } ∧
        db2.stack = (q, h) :: db.stack) ∧
    (∀ (f : Nat) (db : Database) (q : QName) (i : Val) (body : Body)
        (old : Nat),
      aget q db.fns = some body →
      decideRun db.caches q (hashVal i) = .ok (.recompute old) →
      Database.tryRun (f + 1) db q i =
        recomputePhase (fun d => execDb f d (.prog (body i))) db q
          (hashVal i) old) := by
  refine ⟨?_, ?_, ?_⟩
  · intro f db q i body cache c vs v hf hc he hr hd hm hv
    exact tryRun_hit hf hc he hr hd hm hv
  · intro db q h tq th rest tc hcons hent
    obtain ⟨tcache, h1, h2⟩ := entryAt_some_parts hent
    refine ⟨{ db with
        stack := (q, h) :: (tq, th) :: rest,
        caches := aset tq
          (aset th { tc with dependencies := tc.dependencies ++ [(q, h)] }
            tcache) db.caches }, ?_, ?_, ?_⟩
    · unfold recordDep
      simp only [hcons, h1, h2]
    · rw [entryAt_update h1 rfl tq th]
      simp
    · rw [hcons]
  · intro f db q i body old hf hdec
    exact tryRun_route hf hdec

/-- Closed instance of the amended claim C1: recording a pair appends it
to the dependency list of the stack-top entry before the body runs. -/
theorem c1_dependency_recording_witness :
    ∃ db2, recordDep uninitDb "x" 5 = .ok db2 ∧
      entryAt db2 "u" 0 =
        some { CachedComputation.new 1 with
               dependencies := (CachedComputation.new 1).dependencies ++ [("x", 5)] } ∧
      db2.stack = ("x", 5) :: uninitDb.stack :=
  c1_dependency_recording_amended.2.1 uninitDb "x" 5 "u" 0 []
    (CachedComputation.new 1) rfl rfl

/-- Claim C2, counterexample: after re-registering q (its entry is
marked redefined), the entry of d — which lists q among its recorded
dependencies — is answered from the cache on its next consultation,
with the database exactly unchanged: it is not rebuilt, because its
version 4 still dominates the bumped version of q. The transitive
redefinition cascade fails. -/
theorem c2_cascade_fails_cex :
    redefinedAt cascDb6 "q" 0 = some true ∧
    depsAt cascDb6 "d" 0 = some [("q", 0)] ∧
    Database.tryRun 50 cascDb6 "d" Val.unit = (.ok (.nat 2), cascDb6) :=
  ⟨rfl, rfl, rfl⟩

/-- Claim C2, amended: re-registering q bumps the version and sets the
redefined flag of every existing cache entry of q, touching no other
query's cache (part one, with the exact resulting database); an entry
whose redefined flag is set is rebuilt on its next consultation — the
body is entered (part two); and an entry whose version is below the
newest version among its recorded dependencies is likewise rebuilt on
its next consultation (part three). The cascade to dependents is
guaranteed only through this version comparison; it can fail, as the
counterexample shows. -/
theorem c2_redefinition_amended :
    (∀ (db : Database) (q : QName) (f0 bnew : Body) (cache : QCache),
      aget q db.fns = some f0 → aget q db.caches = some cache →
      Database.register db q bnew = .ok { db with
        fns := aset q bnew db.fns,
        caches := aset q (cache.map (fun e => (e.1, bumpEntry e.2)))
          db.caches } ∧
      ∀ (h : InputHash) (c : CachedComputation), aget h cache = some c →
        entryAt { db with
          fns := aset q bnew db.fns,
          caches := aset q (cache.map (fun e => (e.1, bumpEntry e.2)))
            db.caches } q h = some (bumpEntry c)) ∧
    (∀ (f : Nat) (db : Database) (q : QName) (i : Val) (body : Body)
        (cache : QCache) (c : CachedComputation),
      aget q db.fns = some body → aget q db.caches = some cache →
      aget (hashVal i) cache = some c → c.redefined = true → db.stack = [] →
      ∃ rest2, (Database.tryRun (f + 1) db q i).2.calls =
        db.calls ++ (q, hashVal i) :: rest2) ∧
    (∀ (f : Nat) (db : Database) (q : QName) (i : Val) (body : Body)
        (cache : QCache) (c : CachedComputation) (vs : List Nat),
      aget q db.fns = some body → aget q db.caches = some cache →
      aget (hashVal i) cache = some c → c.redefined = false →
      depVersions db.caches c.dependencies = some vs →
      c.version < maxOr1 vs → db.stack = [] →
      ∃ rest2, (Database.tryRun (f + 1) db q i).2.calls =
        db.calls ++ (q, hashVal i) :: rest2) := by
  refine ⟨?_, ?_, ?_⟩
  · intro db q f0 bnew cache hf hc
    constructor
    · unfold Database.register
      rw [if_pos (by rw [hf]; rfl)]
      simp only [hc]
    · intro h c he
      rw [entryAt_eq_entryC]
      show entryC (aset q (cache.map (fun e => (e.1, bumpEntry e.2)))
        db.caches) q h = _
      unfold entryC
      rw [aget_aset_self]
      show aget h (cache.map (fun e => (e.1, bumpEntry e.2))) = _
      rw [aget_map_snd, he]
      rfl
  · intro f db q i body cache c hf hc he hr hstack
    exact tryRun_reenters hf (decideRun_redef_of hc he hr) (Or.inl hstack)
  · intro f db q i body cache c vs hf hc he hr hd hlt hstack
    exact tryRun_reenters hf (decideRun_stale_of hc he hr hd hlt)
      (Or.inl hstack)

/-- Closed instance of the amended claim C2: consulting the redefined
entry of q actually re-enters its body. -/
theorem c2_redefinition_witness :
    ∃ rest2, (Database.tryRun (49 + 1) cascDb6 "q" Val.unit).2.calls =
      cascDb6.calls ++ ("q", hashVal Val.unit) :: rest2 :=
  c2_redefinition_amended.2.1 49 cascDb6 "q" Val.unit qBody
    [(0, ccQ4)] ccQ4 rfl rfl rfl rfl rfl

/-- Claim C3: the query a of the reentrancy test transitively consults
itself on the same input, so try_run on it returns CycleError and run on
it panics; in general, a run that consults an entry still holding the
Uninit sentinel (valid and not redefined) panics on CycleError rather
than producing a value, leaving the database untouched. -/
theorem c3_cycle_detection :
    (Database.tryRun 30 cycleDb "a" Val.unit).1 = .error .cycle ∧
    (Database.run 30 cycleDb "a" Val.unit).1 = none ∧
    (∀ (f : Nat) (db : Database) (q : QName) (i : Val) (body : Body)
        (cache : QCache) (c : CachedComputation) (vs : List Nat),
      aget q db.fns = some body → aget q db.caches = some cache →
      aget (hashVal i) cache = some c → c.redefined = false →
      depVersions db.caches c.dependencies = some vs → maxOr1 vs ≤ c.version →
      c.value = none →
      Database.run (f + 1) db q i = (none, db)) := by
  refine ⟨rfl, rfl, ?_⟩
  intro f db q i body cache c vs hf hc he hr hd hm hv
  unfold Database.run
  rw [tryRun_cyc hf hc he hr hd hm hv]

/-- Closed instance of claim C3: run on a mid-build Uninit entry panics
rather than returning a value. -/
theorem c3_cycle_detection_witness :
    Database.run (5 + 1) uninitDb "u" Val.unit = (none, uninitDb) :=
  c3_cycle_detection.2.2 5 uninitDb "u" Val.unit uBody
    [(0, CachedComputation.new 1)] (CachedComputation.new 1) []
    rfl rfl rfl rfl rfl (by decide) rfl

/-- Claim C4, counterexample: on the dominance-violating state (reached
with registrations that all precede the two runs of d), a second run of
d on the same input — with no set and no re-register between the two
runs — re-enters the body of d: the ghost call log counts one entry of
("d", 0) before and two after, although the returned value is the same.
The body is therefore not executed exactly once per distinct input. -/
theorem c4_reexecution_cex :
    valueAt domDb3 "d" 0 = some (some (.nat 2)) ∧
    (Database.tryRun 50 domDb3 "d" Val.unit).1 = .ok (.nat 2) ∧
    (domDb3.calls.filter (fun p => decide (p = ("d", 0)))).length = 1 ∧
    (domDb4.calls.filter (fun p => decide (p = ("d", 0)))).length = 2 :=
  ⟨rfl, rfl, rfl, rfl⟩

/-- Claim C4, amended: in a database where no query has been
re-registered (every entry at version 1, no redefined flag, no dangling
dependency), a successful run makes every following run of the same pair
a pure cache hit: the same value is returned and the database is exactly
unchanged, so the body is not re-entered (part one). The basic
memoization scenario holds concretely: two runs of len on "hello" and
one on "world" return 5 each, the second run changes nothing, and the
body is entered exactly twice, once per distinct input (part two). -/
theorem c4_idempotence_amended :
    (∀ (f g : Nat) (db : Database) (q : QName) (i : Val) (v : Val)
        (db' : Database), allOne db → noDangling db →
      Database.tryRun f db q i = (.ok v, db') →
      Database.tryRun (g + 1) db' q i = (.ok v, db')) ∧
    (lenR1.1 = .ok (.nat 5) ∧ lenR2.1 = .ok (.nat 5) ∧ lenR2.2 = lenR1.2 ∧
      lenR3.1 = .ok (.nat 5) ∧
      lenR3.2.calls =
        [("len", hashVal (.str "hello")), ("len", hashVal (.str "world"))]) := by
  constructor
  · intro f g db q i v db' hall hnd H
    exact tryRun_idem hall hnd H
  · exact ⟨rfl, rfl, rfl, rfl, rfl⟩

/-- Closed instance of the amended claim C4: the second run of len on
"hello" returns the same 5 and leaves the database unchanged. -/
theorem c4_idempotence_witness :
    Database.tryRun (59 + 1) lenR1.2 "len" (.str "hello") =
      (.ok (.nat 5), lenR1.2) :=
  c4_idempotence_amended.1 60 59 lenDb "len" (.str "hello") (.nat 5) lenR1.2
    (by decide) (by decide) rfl

/-- Claim C5, counterexample: after re-registering q its entry carries
the already-bumped version 2, and the rebuild on the next run commits
version 3 — not version 2 as the decision procedure of the
specification states. -/
theorem c5_version_cex :
    versionAt verDb2 "q" 0 = some 2 ∧ redefinedAt verDb2 "q" 0 = some true ∧
    versionAt verDb3 "q" 0 = some 3 ∧ (3 : Nat) ≠ 2 :=
  ⟨rfl, rfl, rfl, by decide⟩

/-- Claim C5, amended: when try_run rebuilds an existing entry, the
fresh entry is created at the decided old version plus one: at
entry.version + 1 when the entry is marked redefined, and at
newest_dep + 1 when the entry is stale because entry.version is below
newest_dep (the maximum version over its recorded dependencies). -/
theorem c5_rebuild_version_amended :
    (∀ (db : Database) (q : QName) (h : InputHash) (cache : QCache)
        (c : CachedComputation),
      aget q db.caches = some cache → aget h cache = some c →
      c.redefined = true →
      decideRun db.caches q h = .ok (.recompute c.version) ∧
      ∃ db1, insertFresh db q h c.version = .ok db1 ∧
        versionAt db1 q h = some (c.version + 1)) ∧
    (∀ (db : Database) (q : QName) (h : InputHash) (cache : QCache)
        (c : CachedComputation) (vs : List Nat),
      aget q db.caches = some cache → aget h cache = some c →
      c.redefined = false → depVersions db.caches c.dependencies = some vs →
      c.version < maxOr1 vs →
      decideRun db.caches q h = .ok (.recompute (maxOr1 vs)) ∧
      ∃ db1, insertFresh db q h (maxOr1 vs) = .ok db1 ∧
        versionAt db1 q h = some (maxOr1 vs + 1)) := by
  constructor
  · intro db q h cache c hc he hr
    refine ⟨decideRun_redef_of hc he hr, ?_⟩
    have hif : insertFresh db q h c.version = .ok { db with
        caches := aset q (aset h (CachedComputation.new (c.version + 1)) cache)
          db.caches } := by
      unfold insertFresh
      simp only [hc]
    refine ⟨_, hif, ?_⟩
    unfold versionAt
    rw [entryAt_insertFresh hif]
    rfl
  · intro db q h cache c vs hc he hr hd hlt
    refine ⟨decideRun_stale_of hc he hr hd hlt, ?_⟩
    have hif : insertFresh db q h (maxOr1 vs) = .ok { db with
        caches := aset q (aset h (CachedComputation.new (maxOr1 vs + 1)) cache)
          db.caches } := by
      unfold insertFresh
      simp only [hc]
    refine ⟨_, hif, ?_⟩
    unfold versionAt
    rw [entryAt_insertFresh hif]
    rfl

/-- Closed instance of the amended claim C5: the redefined entry of q at
version 2 is rebuilt starting from a fresh entry at version 3. -/
theorem c5_rebuild_version_witness :
    decideRun verDb2.caches "q" 0 = .ok (.recompute ccQ2.version) ∧
    ∃ db1, insertFresh verDb2 "q" 0 ccQ2.version = .ok db1 ∧
      versionAt db1 "q" 0 = some (ccQ2.version + 1) :=
  c5_rebuild_version_amended.1 verDb2 "q" 0 [(0, ccQ2)] ccQ2 rfl rfl rfl

/-- Claim C6, counterexample: on a reachable state the committed
(non-Uninit, non-redefined) entry of d has version 1 while its recorded
dependency q has version 3, so the dominance invariant is false. -/
theorem c6_dominance_cex :
    dominantB domDb3 = false ∧
    versionAt domDb3 "d" 0 = some 1 ∧ redefinedAt domDb3 "d" 0 = some false ∧
    valueAt domDb3 "d" 0 = some (some (.nat 2)) ∧
    depsAt domDb3 "d" 0 = some [("q", 0)] ∧
    versionAt domDb3 "q" 0 = some 3 :=
  ⟨rfl, rfl, rfl, rfl, rfl, rfl⟩

/-- Claim C6, amended: dominance holds on every database in which no
query has been re-registered — equivalently, every entry is at version 1
with a clear redefined flag — and running queries preserves that state,
so dominance holds at every point of a lifetime whose registrations all
precede its runs. With re-registration the invariant can fail, as the
counterexample shows. -/
theorem c6_dominance_amended : ∀ db : Database, allOne db →
    dominantB db = true ∧
    ∀ (f : Nat) (q : QName) (i : Val),
      allOne (Database.tryRun f db q i).2 := by
  intro db hall
  constructor
  · unfold dominantB
    rw [List.all_eq_true]
    intro p hp
    rw [List.all_eq_true]
    intro e he
    rcases hall p hp e he with ⟨hv1, hr⟩
    have hdeps : e.2.dependencies.all (fun d =>
        match entryAt db d.1 d.2 with
        | none => true
        | some dc => decide (dc.version ≤ e.2.version)) = true := by
      rw [List.all_eq_true]
      intro d hd
      cases hx : entryAt db d.1 d.2 with
      | none => rfl
      | some dc =>
        obtain ⟨hdc1, -⟩ := allOne_entry hall hx
        show decide (dc.version ≤ e.2.version) = true
        rw [hdc1, hv1]
        rfl
    simp [hdeps]
  · intro f q i
    exact steps_allOne (tryRun_steps f db q i) hall

/-- Closed instance of the amended claim C6: the freshly registered
database dominates, and a run keeps every version at 1. -/
theorem c6_dominance_witness :
    dominantB domDb0 = true ∧
    allOne (Database.tryRun 50 domDb0 "q" Val.unit).2 :=
  ⟨(c6_dominance_amended domDb0 (by decide)).1,
   (c6_dominance_amended domDb0 (by decide)).2 50 "q" Val.unit⟩

/-- Claim C7: evaluation of the code at the failing input. The outer
query emits "e1" and then consults the inner query, which emits "e2"
and is recomputed. The shared scratch container makes the commit of the
inner entry take both emissions — including the outer computation's
"e1" — and the outer entry commits an empty effect set, against the
per-entry ownership the specification states. -/
theorem c7_effect_ownership_bug :
    (Database.tryRun 50 effDb0 "outer" Val.unit).1 = .ok (.nat 1) ∧
    effectsAt effDb1 "inner" 0 = some [.str "e1", .str "e2"] ∧
    effectsAt effDb1 "outer" 0 = some [] :=
  ⟨rfl, rfl, rfl⟩

/-- Claim C8: over any sequence of register, run, try_run and do_effect
operations on a database whose caches are in sync with its registry
(true from Database::new on), every extant cache entry persists with a
version that never decreases, and positive versions stay positive (an
entry is created at version at least 1 and only grows). -/
theorem c8_version_monotonic : ∀ (ops : List Op) (db : Database),
    keysSync db →
    (∀ (q : QName) (h : InputHash) (c : CachedComputation),
      entryAt db q h = some c →
      ∃ c', entryAt (applyOps db ops) q h = some c' ∧ c.version ≤ c'.version) ∧
    (posVersions db → posVersions (applyOps db ops)) := by
  intro ops db hks
  obtain ⟨hle, -, hpos⟩ := applyOps_versionsLe ops db hks
  exact ⟨hle, hpos⟩

/-- Closed instance of claim C8: the entry of q at version 1 survives a
re-register followed by a run with its version not decreased. -/
theorem c8_version_monotonic_witness :
    ∃ c', entryAt (applyOps domDb1 [Op.reg "q" qBody, Op.tryRunOp 50 "q" Val.unit])
        "q" 0 = some c' ∧ ccQ1.version ≤ c'.version :=
  (c8_version_monotonic [Op.reg "q" qBody, Op.tryRunOp 50 "q" Val.unit]
    domDb1 (by decide)).1 "q" 0 ccQ1 rfl

/-- Claim C9: the memoized Fibonacci query consults itself on distinct
inputs without triggering cycle detection: run(fib, 15) returns 610 and
the body is entered exactly once per value in 0..=15, in descending
order of first need. -/
theorem c9_fib_recursion :
    (Database.tryRun 500 fibDb "fib" (.nat 15)).1 = .ok (.nat 610) ∧
    (Database.tryRun 500 fibDb "fib" (.nat 15)).2.calls =
      (List.range 16).reverse.map (fun n => ("fib", hashVal (.nat n))) :=
  ⟨rfl, rfl⟩

/-- Claim C10: consulting a pair whose entry holds the Uninit sentinel,
is not marked redefined, and has a version at least the newest version
of its recorded dependencies makes try_run return CycleError with the
database returned exactly as it was: no entry is created, reset or
mutated, nothing is pushed on the stack, and the effect scratch is
untouched. -/
theorem c10_cycle_pure : ∀ (f : Nat) (db : Database) (q : QName) (i : Val)
    (body : Body) (cache : QCache) (c : CachedComputation) (vs : List Nat),
    aget q db.fns = some body → aget q db.caches = some cache →
    aget (hashVal i) cache = some c → c.redefined = false →
    depVersions db.caches c.dependencies = some vs → maxOr1 vs ≤ c.version →
    c.value = none →
    Database.tryRun (f + 1) db q i = (.error .cycle, db) :=
  fun _ _ _ _ _ _ _ _ hf hc he hr hd hm hv =>
    tryRun_cyc hf hc he hr hd hm hv

/-- Closed instance of claim C10: consulting the mid-build Uninit entry
of u yields CycleError and the untouched database. -/
theorem c10_cycle_pure_witness :
    Database.tryRun (5 + 1) uninitDb "u" Val.unit =
      (.error .cycle, uninitDb) :=
  c10_cycle_pure 5 uninitDb "u" Val.unit uBody [(0, CachedComputation.new 1)]
    (CachedComputation.new 1) [] rfl rfl rfl rfl rfl (by decide) rfl

end Yeter
